import Mathlib

set_option maxHeartbeats 1000000

/-!
Verification of the `fhq-treap` repository (`src/lib.rs`): an ordered
key-value map backed by a randomized treap.  The Rust structures are
shallow-embedded: `TreapMap<K, V> = Option<Box<NodeData<K, V>>>` becomes an
inductive tree, mutation becomes explicit state passing, the `u32` sizes and
weights become `Nat` (they are only compared and added, and no addition here
can overflow below `2^32` elements), and the random weight drawn by
`rand::random()` at each node creation becomes an explicit `Nat` parameter.
-/

universe u v

/-- Tree from `lib.rs`: `TreapMap` is `Option<Box<NodeData>>`; `NodeData` holds
the left and right subtrees, the cached subtree size, the key, the value and a
random weight, in that order. -/
inductive TreapMap (K : Type u) (V : Type v) where
  | nil : TreapMap K V
  | node (left : TreapMap K V) (right : TreapMap K V) (size : Nat) (key : K)
      (value : V) (weight : Nat) : TreapMap K V
deriving DecidableEq

namespace TreapMap

variable {K : Type u} {V : Type v}

/-- `TreapMap::len`: the cached size stored at the root, `0` for the empty tree. -/
def len : TreapMap K V → Nat
  | nil => 0
  | node _ _ s _ _ _ => s

/-- Builds a node whose children have just been set and whose cached size is
then recomputed, exactly as `NodeData::maintain` does
(`size = left.len() + right.len() + 1`). -/
def mkNode (l r : TreapMap K V) (k : K) (v : V) (w : Nat) : TreapMap K V :=
  node l r (l.len + r.len + 1) k v w

/-- In-order traversal of the tree as a list of key-value pairs. -/
def inorder : TreapMap K V → List (K × V)
  | nil => []
  | node l r _ k v _ => inorder l ++ (k, v) :: inorder r

/-- In-order key sequence. -/
def keys (t : TreapMap K V) : List K :=
  (inorder t).map Prod.fst

/-- `TreapMap::split_lt`: splits into the part with keys `< key` and the part
with keys `≥ key`, consuming the tree and recomputing sizes on the path. -/
def split_lt [LinearOrder K] : TreapMap K V → K → TreapMap K V × TreapMap K V
  | nil, _ => (nil, nil)
  | node l r _ k v w, key =>
    if key ≤ k then
      let p := split_lt l key
      (p.1, mkNode p.2 r k v w)
    else
      let p := split_lt r key
      (mkNode l p.1 k v w, p.2)

/-- `TreapMap::split_le`: splits into the part with keys `≤ key` and the part
with keys `> key`. -/
def split_le [LinearOrder K] : TreapMap K V → K → TreapMap K V × TreapMap K V
  | nil, _ => (nil, nil)
  | node l r _ k v w, key =>
    if key < k then
      let p := split_le l key
      (p.1, mkNode p.2 r k v w)
    else
      let p := split_le r key
      (mkNode l p.1 k v w, p.2)

/-- `TreapMap::split_n`: splits off the first `n` elements by rank; when
`n ≥ size` the whole tree is returned on the left. -/
def split_n : TreapMap K V → Nat → TreapMap K V × TreapMap K V
  | nil, _ => (nil, nil)
  | node l r s k v w, n =>
    if n ≥ s then (node l r s k v w, nil)
    else
      let ls := l.len
      if n ≤ ls then
        let p := split_n l n
        (p.1, mkNode p.2 r k v w)
      else
        let p := split_n r (n - ls - 1)
        (mkNode l p.1 k v w, p.2)

/-- `TreapMap::merge`: the smaller-weight root wins; the matching child slot is
recursively merged with the other tree and the size is recomputed. -/
def merge : TreapMap K V → TreapMap K V → TreapMap K V
  | nil, y => y
  | node xl xr xs xk xv xw, nil => node xl xr xs xk xv xw
  | node xl xr xs xk xv xw, node yl yr ys yk yv yw =>
    if xw < yw then
      mkNode xl (merge xr (node yl yr ys yk yv yw)) xk xv xw
    else
      mkNode (merge (node xl xr xs xk xv xw) yl) yr yk yv yw
termination_by x y => sizeOf x + sizeOf y
decreasing_by
  all_goals simp_wf
  all_goals omega

/-- `TreapMap::get_kv`: standard BST descent, matching `key.cmp(&node.key)`. -/
def get_kv [LinearOrder K] : TreapMap K V → K → Option (K × V)
  | nil, _ => none
  | node l r _ k v _, key =>
    if key < k then get_kv l key
    else if key > k then get_kv r key
    else some (k, v)

/-- `TreapMap::get`: value component of `get_kv`. -/
def get [LinearOrder K] (t : TreapMap K V) (key : K) : Option V :=
  (t.get_kv key).map Prod.snd

/-- `TreapMap::min`: leftmost descent. -/
def min : TreapMap K V → Option (K × V)
  | nil => none
  | node l _ _ k v _ =>
    match min l with
    | none => some (k, v)
    | some p => some p

/-- Effect of `TreapMap::min_mut` followed by `mem::replace(v, value)` inside
`insert`: replace the value stored at the leftmost node, touching nothing else. -/
def replace_min_value : TreapMap K V → V → TreapMap K V
  | nil, _ => nil
  | node nil r s k _ w, nv => node nil r s k nv w
  | node (node a b s2 k2 v2 w2) r s k v w, nv =>
    node (replace_min_value (node a b s2 k2 v2 w2) nv) r s k v w

/-- `NodeData::new`: a fresh leaf with size `1` and the given random weight. -/
def newNode (k : K) (v : V) (w : Nat) : TreapMap K V :=
  node nil nil 1 k v w

/-- `TreapMap::insert`: split at `key`, update the minimum of the right part in
place when the key is already present, otherwise splice in one fresh node with
the supplied random weight `w`.  Returns the new tree and the old value. -/
def insert [LinearOrder K] (t : TreapMap K V) (key : K) (value : V) (w : Nat) :
    TreapMap K V × Option V :=
  let l := (t.split_lt key).1
  let r := (t.split_lt key).2
  match r.min with
  | some (k, v0) =>
    if k = key then (merge l (r.replace_min_value value), some v0)
    else (merge (merge l (newNode key value w)) r, none)
  | none => (merge (merge l (newNode key value w)) r, none)

/-- Root value of a tree, used by `remove` to read `m.value`. -/
def rootValue : TreapMap K V → Option V
  | nil => none
  | node _ _ _ _ v _ => some v

/-- `TreapMap::remove`: isolate the at most one node equal to `key` between a
`split_lt` and a `split_le`, re-merge the rest and return the captured value. -/
def remove [LinearOrder K] (t : TreapMap K V) (key : K) :
    TreapMap K V × Option V :=
  let l := (t.split_lt key).1
  let r := (t.split_lt key).2
  (merge l (r.split_le key).2, (r.split_le key).1.rootValue)

/-- `TreapMap::num_lt`: each right-descent step accumulates `size(left) + 1`;
the pivot comparison `key <= node.key` sends equal keys to the left. -/
def num_lt [LinearOrder K] : TreapMap K V → K → Nat
  | nil, _ => 0
  | node l r _ k _ _, key =>
    if key ≤ k then num_lt l key
    else l.len + 1 + num_lt r key

/-- `TreapMap::num_le`: same descent with the pivot comparison `key < node.key`. -/
def num_le [LinearOrder K] : TreapMap K V → K → Nat
  | nil, _ => 0
  | node l r _ k _ _, key =>
    if key < k then num_le l key
    else l.len + 1 + num_le r key

/-- Loop body of `TreapMap::nth_kv`, searching for the `n`-th element in
1-indexed form; the `unreachable!` arm of the Rust loop is modelled as `none`. -/
def nth_go : TreapMap K V → Nat → Option (K × V)
  | nil, _ => none
  | node l r _ k v _, n =>
    let ls := l.len
    if n ≤ ls then nth_go l n
    else if n - ls - 1 = 0 then some (k, v)
    else nth_go r (n - ls - 1)

/-- `TreapMap::nth_kv`: 0-indexed order statistic, `none` when `n ≥ len`. -/
def nth_kv (t : TreapMap K V) (n : Nat) : Option (K × V) :=
  if n ≥ t.len then none else t.nth_go (n + 1)

end TreapMap

/-- One `Box<NodeData>` as held by the bulk builder's stack and the iterator's
stack, with the same fields in the same order as the Rust struct. -/
structure NodeB (K : Type u) (V : Type v) where
  left : TreapMap K V
  right : TreapMap K V
  size : Nat
  key : K
  value : V
  weight : Nat
deriving DecidableEq

namespace NodeB

variable {K : Type u} {V : Type v}

/-- Tree rooted at this box. -/
def toTree (n : NodeB K V) : TreapMap K V :=
  TreapMap.node n.left n.right n.size n.key n.value n.weight

/-- `NodeData::maintain` on a box: recompute the cached size from the children. -/
def maintain (n : NodeB K V) : NodeB K V :=
  { n with size := n.left.len + n.right.len + 1 }

end NodeB

namespace TreapMap

variable {K : Type u} {V : Type v}

/-- Inner `while let Some(top) = stack.pop()` loop of
`from_unique_sorted_iter`: while the new node's weight `w` is smaller than the
top's weight, the popped top receives the new node's current left child as its
right child, is maintained, and becomes the new node's left child.  Returns
the final left child for the new node and the remaining stack (head = top). -/
def build_pop (w : Nat) : TreapMap K V → List (NodeB K V) →
    TreapMap K V × List (NodeB K V)
  | l, [] => (l, [])
  | l, top :: rest =>
    if w < top.weight then
      build_pop w (({ top with right := l } : NodeB K V).maintain).toTree rest
    else (l, top :: rest)

/-- Body of the `for (key, value) in iter` loop of `from_unique_sorted_iter`:
pop the heavier stack entries into the fresh node's left child, maintain the
fresh node, push it. -/
def build_step (stack : List (NodeB K V)) (k : K) (v : V) (w : Nat) :
    List (NodeB K V) :=
  let p := build_pop w nil stack
  ({ left := p.1, right := nil, size := 1, key := k, value := v, weight := w }
      : NodeB K V).maintain :: p.2

/-- Final `while let Some(top) = stack.pop()` loop of
`from_unique_sorted_iter`: repeatedly hang the popped top as the right child of
the next entry, maintaining it; the last entry is the result. -/
def build_fold : List (NodeB K V) → TreapMap K V
  | [] => nil
  | [top] => top.toTree
  | top :: x :: rest =>
    build_fold (({ x with right := top.toTree } : NodeB K V).maintain :: rest)
termination_by l => l.length
decreasing_by
  simp only [List.length_cons]
  omega

/-- `TreapMap::from_unique_sorted_iter` over a list of key-value pairs, each
paired with the random weight drawn for its node. -/
def from_unique_sorted_iter (l : List (K × V × Nat)) : TreapMap K V :=
  build_fold (l.foldl (fun st x => build_step st x.1 x.2.1 x.2.2) [])

/-- `DedupSortedIter` as a whole-list function: keep the first element of every
run of consecutive equal keys and drop the rest. -/
def dedup_sorted [DecidableEq K] : List (K × V × Nat) → List (K × V × Nat)
  | [] => []
  | x :: rest => x :: dedup_sorted (rest.dropWhile fun y => y.1 = x.1)
termination_by l => l.length
decreasing_by
  simp only [List.length_cons]
  have h := (@List.dropWhile_sublist _ rest (fun y => decide (y.1 = x.1))).length_le
  omega

/-- `TreapMap::from_sorted_iter`: the unique-sorted builder behind
`DedupSortedIter`. -/
def from_sorted_iter [DecidableEq K] (l : List (K × V × Nat)) : TreapMap K V :=
  from_unique_sorted_iter (dedup_sorted l)

/-- `FromIterator::from_iter`: collect, return the empty tree on an empty
input, stably sort by key (Rust's `sort_by(|x, y| x.0.cmp(&y.0))`), and hand
the result to `from_unique_sorted_iter`. -/
def fromIter [LinearOrder K] (l : List (K × V × Nat)) : TreapMap K V :=
  if l.isEmpty then nil
  else from_unique_sorted_iter (l.mergeSort fun x y => x.1 ≤ y.1)

end TreapMap

/-- State of `Iter`: the explicit ancestor stack (head of the list is the
`Vec`'s top), the `remaining` counter and the direction flag. -/
structure IterSt (K : Type u) (V : Type v) where
  stack : List (NodeB K V)
  remaining : Nat
  rev : Bool

namespace TreapMap

variable {K : Type u} {V : Type v}

/-- Inner `loop` of `Iter::move_next`: push the current node and keep
descending into left children.  Entered with the right child of the node just
yielded. -/
def pushLeftSpine : TreapMap K V → List (NodeB K V) → List (NodeB K V)
  | nil, st => st
  | node l r s k v w, st => pushLeftSpine l (⟨l, r, s, k, v, w⟩ :: st)

/-- Final `while let Some(parent) = stack.pop()` loop of `Iter::move_next`:
pop ancestors as long as the node just left is the parent's right child.  The
Rust code decides this with `std::ptr::eq`; on the genuine root-to-node paths
the iterator builds over a tree with distinct keys this coincides with the
structural comparison used here. -/
def popRight [DecidableEq K] [DecidableEq V] :
    NodeB K V → List (NodeB K V) → List (NodeB K V)
  | _, [] => []
  | last, parent :: rest =>
    if parent.right = last.toTree then popRight parent rest
    else parent :: rest

/-- `Iter::move_next`. -/
def move_next [DecidableEq K] [DecidableEq V] :
    List (NodeB K V) → List (NodeB K V)
  | [] => []
  | last :: rest =>
    match last.right with
    | nil => popRight last rest
    | node _ _ _ _ _ _ => pushLeftSpine last.right (last :: rest)

/-- Inner `loop` of `Iter::move_prev`: mirror image of `pushLeftSpine`. -/
def pushRightSpine : TreapMap K V → List (NodeB K V) → List (NodeB K V)
  | nil, st => st
  | node l r s k v w, st => pushRightSpine r (⟨l, r, s, k, v, w⟩ :: st)

/-- Ancestor-popping loop of `Iter::move_prev`: mirror image of `popRight`. -/
def popLeft [DecidableEq K] [DecidableEq V] :
    NodeB K V → List (NodeB K V) → List (NodeB K V)
  | _, [] => []
  | last, parent :: rest =>
    if parent.left = last.toTree then popLeft parent rest
    else parent :: rest

/-- `Iter::move_prev`. -/
def move_prev [DecidableEq K] [DecidableEq V] :
    List (NodeB K V) → List (NodeB K V)
  | [] => []
  | last :: rest =>
    match last.left with
    | nil => popLeft last rest
    | node _ _ _ _ _ _ => pushRightSpine last.left (last :: rest)

/-- Descent loop of `TreapMap::slice`, locating the node of 1-indexed rank `n`
and recording the root-to-node path (the `unreachable!` arm returns the stack
built so far). -/
def slice_descend : TreapMap K V → Nat → List (NodeB K V) → List (NodeB K V)
  | nil, _, st => st
  | node l r s k v w, n, st =>
    let st' : List (NodeB K V) := ⟨l, r, s, k, v, w⟩ :: st
    let ls := l.len
    if n ≤ ls then slice_descend l n st'
    else if n - ls - 1 = 0 then st'
    else slice_descend r (n - ls - 1) st'

/-- `TreapMap::slice` over the rank range `start..stop`: cap `stop` at the
length, return an empty iterator when `start ≥ stop`, otherwise record the
path to rank `start` and remember `stop - start` remaining items. -/
def slice (t : TreapMap K V) (start stop : Nat) : IterSt K V :=
  let r := Min.min stop t.len
  if start ≥ r then ⟨[], 0, false⟩
  else ⟨slice_descend t (start + 1) [], r - start, false⟩

/-- `TreapMap::rev_slice`: build the forward iterator at the last in-range
rank, then widen `remaining` and set the reverse flag. -/
def rev_slice (t : TreapMap K V) (start stop : Nat) : IterSt K V :=
  let r := Min.min stop t.len
  if start ≥ r then ⟨[], 0, false⟩
  else
    let it := slice t (r - 1) r
    ⟨it.stack, r - start, true⟩

/-- Runs `Iter::next` to exhaustion and collects the yielded pairs: stop when
`remaining` hits `0` or when the stack is empty (`stack.last()` is `None`);
otherwise yield the top of the stack and advance with `move_next`/`move_prev`. -/
def iter_collect [DecidableEq K] [DecidableEq V] : IterSt K V → List (K × V)
  | ⟨st, rem, rv⟩ =>
    match rem with
    | 0 => []
    | m + 1 =>
      match st with
      | [] => []
      | top :: rest =>
        (top.key, top.value) ::
          iter_collect ⟨if rv then move_prev (top :: rest) else move_next (top :: rest), m, rv⟩
termination_by it => it.remaining
decreasing_by
  simp

/-- Size invariant: every cached `size` field equals
`size(left) + size(right) + 1`. -/
def sizeOk : TreapMap K V → Prop
  | nil => True
  | node l r s _ _ _ => s = l.len + r.len + 1 ∧ sizeOk l ∧ sizeOk r

instance sizeOk.decide : (t : TreapMap K V) → Decidable (sizeOk t)
  | nil => isTrue trivial
  | node l r s k v w => by
    have hl := sizeOk.decide l
    have hr := sizeOk.decide r
    unfold sizeOk
    infer_instance

/-- Strict BST invariant phrased on the in-order traversal: the key sequence
is strictly increasing (hence in particular duplicate-free). -/
def bst [LinearOrder K] (t : TreapMap K V) : Prop :=
  (keys t).Pairwise (· < ·)

/-- Trees produced and consumed by the public interface: cached sizes correct
and in-order keys strictly increasing. -/
def Wf [LinearOrder K] (t : TreapMap K V) : Prop :=
  sizeOk t ∧ bst t

/-- States that the root weight of `t`, if any, is at least `w`. -/
def rootGe (w : Nat) : TreapMap K V → Prop
  | nil => True
  | node _ _ _ _ _ w2 => w ≤ w2

instance rootGe.decide (w : Nat) : (t : TreapMap K V) → Decidable (rootGe w t)
  | nil => isTrue trivial
  | node l r s k v w2 => by
    unfold rootGe
    infer_instance

/-- Min-heap order on the random weights: every node's weight is `≤` the
weight of each of its children. -/
def heapOk : TreapMap K V → Prop
  | nil => True
  | node l r _ _ _ w => rootGe w l ∧ rootGe w r ∧ heapOk l ∧ heapOk r

instance heapOk.decide : (t : TreapMap K V) → Decidable (heapOk t)
  | nil => isTrue trivial
  | node l r s k v w => by
    have hl := heapOk.decide l
    have hr := heapOk.decide r
    unfold heapOk
    infer_instance

instance bst.decide [LinearOrder K] (t : TreapMap K V) : Decidable (bst t) := by
  unfold bst
  infer_instance

instance Wf.decide [LinearOrder K] (t : TreapMap K V) : Decidable (Wf t) := by
  unfold Wf
  infer_instance

end TreapMap

/-!
Semantic helper definitions used by the proofs below: they are not part of the
Rust source, only specification-side functions.
-/

namespace TreapMap

variable {K : Type u} {V : Type v}

/-- Folds a whole list of keyed values (with their random weights) into a map
by repeated `insert`, starting from the empty map. -/
def insertAll [LinearOrder K] (l : List (K × V × Nat)) : TreapMap K V :=
  l.foldl (fun t x => (t.insert x.1 x.2.1 x.2.2).1) nil

/-- In-order contents of a builder stack, bottom entry first, counting each
entry's left subtree and its own pair but ignoring its right subtree (stack
entries of the bulk builder always carry an empty right subtree). -/
def stackIno : List (NodeB K V) → List (K × V)
  | [] => []
  | e :: rest => stackIno rest ++ (inorder e.left ++ [(e.key, e.value)])

/-- Pairs still to be visited by the forward iterator strictly above the node
`last` that was just finished: ancestors reached through a right edge are
skipped, the others contribute their own pair and their right subtree. -/
def skipUp [DecidableEq K] [DecidableEq V] :
    TreapMap K V → List (NodeB K V) → List (K × V)
  | _, [] => []
  | last, p :: rest =>
    if p.right = last then skipUp p.toTree rest
    else (p.key, p.value) :: (inorder p.right ++ skipUp p.toTree rest)

/-- Pairs still to be visited by the forward iterator in a given stack state. -/
def remIter [DecidableEq K] [DecidableEq V] : List (NodeB K V) → List (K × V)
  | [] => []
  | top :: rest =>
    (top.key, top.value) :: (inorder top.right ++ skipUp top.toTree rest)

/-- Mirror of `skipUp` for the reverse iterator. -/
def skipUpR [DecidableEq K] [DecidableEq V] :
    TreapMap K V → List (NodeB K V) → List (K × V)
  | _, [] => []
  | last, p :: rest =>
    if p.left = last then skipUpR p.toTree rest
    else (p.key, p.value) :: ((inorder p.left).reverse ++ skipUpR p.toTree rest)

/-- Pairs still to be visited by the reverse iterator in a given stack state. -/
def remIterR [DecidableEq K] [DecidableEq V] : List (NodeB K V) → List (K × V)
  | [] => []
  | top :: rest =>
    (top.key, top.value) :: ((inorder top.left).reverse ++ skipUpR top.toTree rest)

end TreapMap

/-!
Basic facts about traversals, lengths and the split/merge core.
-/

namespace TreapMap

variable {K : Type u} {V : Type v}

theorem inorder_mkNode (l r : TreapMap K V) (k : K) (v : V) (w : Nat) :
    inorder (mkNode l r k v w) = inorder l ++ (k, v) :: inorder r := rfl

theorem len_mkNode (l r : TreapMap K V) (k : K) (v : V) (w : Nat) :
    (mkNode l r k v w).len = l.len + r.len + 1 := rfl

theorem inorder_eq_nil_iff (t : TreapMap K V) : inorder t = [] ↔ t = nil := by
  cases t <;> simp [inorder]

theorem len_eq_length (t : TreapMap K V) (h : sizeOk t) :
    t.len = (inorder t).length := by
  induction t with
  | nil => rfl
  | node l r s k v w ihl ihr =>
    obtain ⟨hs, hl, hr⟩ := h
    show s = (inorder l ++ (k, v) :: inorder r).length
    rw [hs, ihl hl, ihr hr, List.length_append, List.length_cons]
    omega

theorem merge_inorder (x y : TreapMap K V) :
    inorder (merge x y) = inorder x ++ inorder y := by
  induction x, y using merge.induct with
  | case1 y => simp [merge, inorder]
  | case2 xl xr xs xk xv xw => simp [merge, inorder]
  | case3 xl xr xs xk xv xw yl yr ys yk yv yw h ih =>
    rw [merge, if_pos h, inorder_mkNode, ih]
    simp [inorder]
  | case4 xl xr xs xk xv xw yl yr ys yk yv yw h ih =>
    rw [merge, if_neg h, inorder_mkNode, ih]
    simp [inorder]

theorem split_lt_concat [LinearOrder K] (t : TreapMap K V) (key : K) :
    inorder (t.split_lt key).1 ++ inorder (t.split_lt key).2 = inorder t := by
  induction t with
  | nil => simp [split_lt, inorder]
  | node l r s k v w ihl ihr =>
    by_cases h : key ≤ k
    · simp only [split_lt, if_pos h, inorder_mkNode, inorder]
      rw [← List.append_assoc, ihl]
    · simp only [split_lt, if_neg h, inorder_mkNode, inorder]
      rw [List.append_assoc, List.cons_append, ihr]

theorem split_le_concat [LinearOrder K] (t : TreapMap K V) (key : K) :
    inorder (t.split_le key).1 ++ inorder (t.split_le key).2 = inorder t := by
  induction t with
  | nil => simp [split_le, inorder]
  | node l r s k v w ihl ihr =>
    by_cases h : key < k
    · simp only [split_le, if_pos h, inorder_mkNode, inorder]
      rw [← List.append_assoc, ihl]
    · simp only [split_le, if_neg h, inorder_mkNode, inorder]
      rw [List.append_assoc, List.cons_append, ihr]

theorem split_n_concat (t : TreapMap K V) (n : Nat) :
    inorder (t.split_n n).1 ++ inorder (t.split_n n).2 = inorder t := by
  induction t generalizing n with
  | nil => simp [split_n, inorder]
  | node l r s k v w ihl ihr =>
    by_cases hs : n ≥ s
    · simp [split_n, if_pos hs, inorder]
    · by_cases h : n ≤ l.len
      · simp only [split_n, if_neg hs, if_pos h, inorder_mkNode, inorder]
        rw [← List.append_assoc, ihl]
      · simp only [split_n, if_neg hs, if_neg h, inorder_mkNode, inorder]
        rw [List.append_assoc, List.cons_append, ihr]

theorem sizeOk_mkNode {l r : TreapMap K V} (k : K) (v : V) (w : Nat)
    (hl : sizeOk l) (hr : sizeOk r) : sizeOk (mkNode l r k v w) :=
  ⟨rfl, hl, hr⟩

theorem sizeOk_newNode (k : K) (v : V) (w : Nat) :
    sizeOk (newNode k v w : TreapMap K V) :=
  ⟨rfl, trivial, trivial⟩

theorem sizeOk_merge {x y : TreapMap K V} (hx : sizeOk x) (hy : sizeOk y) :
    sizeOk (merge x y) := by
  induction x, y using merge.induct with
  | case1 y => simpa [merge] using hy
  | case2 xl xr xs xk xv xw => simpa [merge] using hx
  | case3 xl xr xs xk xv xw yl yr ys yk yv yw h ih =>
    rw [merge, if_pos h]
    exact sizeOk_mkNode _ _ _ hx.2.1 (ih hx.2.2 hy)
  | case4 xl xr xs xk xv xw yl yr ys yk yv yw h ih =>
    rw [merge, if_neg h]
    exact sizeOk_mkNode _ _ _ (ih hx hy.2.1) hy.2.2

theorem sizeOk_split_lt [LinearOrder K] {t : TreapMap K V} (key : K)
    (h : sizeOk t) : sizeOk (t.split_lt key).1 ∧ sizeOk (t.split_lt key).2 := by
  induction t with
  | nil => exact ⟨trivial, trivial⟩
  | node l r s k v w ihl ihr =>
    by_cases hc : key ≤ k
    · simp only [split_lt, if_pos hc]
      exact ⟨(ihl h.2.1).1, sizeOk_mkNode _ _ _ (ihl h.2.1).2 h.2.2⟩
    · simp only [split_lt, if_neg hc]
      exact ⟨sizeOk_mkNode _ _ _ h.2.1 (ihr h.2.2).1, (ihr h.2.2).2⟩

theorem sizeOk_split_le [LinearOrder K] {t : TreapMap K V} (key : K)
    (h : sizeOk t) : sizeOk (t.split_le key).1 ∧ sizeOk (t.split_le key).2 := by
  induction t with
  | nil => exact ⟨trivial, trivial⟩
  | node l r s k v w ihl ihr =>
    by_cases hc : key < k
    · simp only [split_le, if_pos hc]
      exact ⟨(ihl h.2.1).1, sizeOk_mkNode _ _ _ (ihl h.2.1).2 h.2.2⟩
    · simp only [split_le, if_neg hc]
      exact ⟨sizeOk_mkNode _ _ _ h.2.1 (ihr h.2.2).1, (ihr h.2.2).2⟩

end TreapMap

/-!
Order-related facts: the BST invariant, filter characterizations of the two
key splits, and the lookup helpers.
-/

namespace TreapMap

variable {K : Type u} {V : Type v}

theorem keys_node (l r : TreapMap K V) (s : Nat) (k : K) (v : V) (w : Nat) :
    keys (node l r s k v w) = keys l ++ k :: keys r := by
  simp [keys, inorder]

theorem mem_keys_of_mem_inorder {t : TreapMap K V} {p : K × V}
    (h : p ∈ inorder t) : p.1 ∈ keys t :=
  List.mem_map_of_mem Prod.fst h

section Order

variable [LinearOrder K]

theorem bst_node_iff {l r : TreapMap K V} {s : Nat} {k : K} {v : V} {w : Nat} :
    bst (node l r s k v w) ↔
      bst l ∧ bst r ∧ (∀ a ∈ keys l, a < k) ∧ ∀ b ∈ keys r, k < b := by
  simp only [bst, keys_node, List.pairwise_append, List.pairwise_cons,
    List.mem_cons]
  constructor
  · rintro ⟨pl, ⟨hk, pr⟩, hmix⟩
    exact ⟨pl, pr, fun a ha => hmix a ha k (Or.inl rfl), hk⟩
  · rintro ⟨pl, pr, hlk, hkr⟩
    refine ⟨pl, ⟨hkr, pr⟩, ?_⟩
    rintro a ha b (rfl | hb)
    · exact hlk a ha
    · exact lt_trans (hlk a ha) (hkr b hb)

theorem split_lt_inorder {t : TreapMap K V} (key : K) (h : bst t) :
    inorder (t.split_lt key).1 = (inorder t).filter (fun p => p.1 < key) ∧
      inorder (t.split_lt key).2 = (inorder t).filter (fun p => ¬p.1 < key) := by
  induction t with
  | nil => simp [split_lt, inorder]
  | node l r s k v w ihl ihr =>
    rw [bst_node_iff] at h
    obtain ⟨hbl, hbr, hlk, hkr⟩ := h
    by_cases hc : key ≤ k
    · have hknot : ¬k < key := not_lt.mpr hc
      have hrnot : ∀ p ∈ inorder r, ¬p.1 < key := fun p hp =>
        not_lt.mpr (le_of_lt (lt_of_le_of_lt hc (hkr p.1 (mem_keys_of_mem_inorder hp))))
      have hfr : (inorder r).filter (fun p => decide (p.1 < key)) = [] := by
        rw [List.filter_eq_nil_iff]
        intro p hp
        simpa using hrnot p hp
      have hfr2 : (inorder r).filter (fun p => !decide (p.1 < key)) = inorder r := by
        rw [List.filter_eq_self]
        intro p hp
        simpa using hrnot p hp
      constructor
      · simp only [split_lt, if_pos hc, inorder, List.filter_append,
          List.filter_cons]
        rw [(ihl hbl).1]
        simp [hknot, hfr]
      · simp only [split_lt, if_pos hc, inorder_mkNode, inorder,
          List.filter_append, List.filter_cons]
        rw [(ihl hbl).2]
        simp only [decide_not]
        simp [hknot, hfr2]
    · have hkyes : k < key := not_le.mp hc
      have hlyes : ∀ p ∈ inorder l, p.1 < key := fun p hp =>
        lt_trans (hlk p.1 (mem_keys_of_mem_inorder hp)) hkyes
      have hfl : (inorder l).filter (fun p => decide (p.1 < key)) = inorder l := by
        rw [List.filter_eq_self]
        intro p hp
        simpa using hlyes p hp
      have hfl2 : (inorder l).filter (fun p => !decide (p.1 < key)) = [] := by
        rw [List.filter_eq_nil_iff]
        intro p hp
        simpa using hlyes p hp
      constructor
      · simp only [split_lt, if_neg hc, inorder_mkNode, inorder,
          List.filter_append, List.filter_cons]
        rw [(ihr hbr).1]
        simp [hkyes, hfl]
      · simp only [split_lt, if_neg hc, inorder, List.filter_append,
          List.filter_cons]
        rw [(ihr hbr).2]
        simp only [decide_not]
        simp [hkyes, hfl2]

theorem split_le_inorder {t : TreapMap K V} (key : K) (h : bst t) :
    inorder (t.split_le key).1 = (inorder t).filter (fun p => p.1 ≤ key) ∧
      inorder (t.split_le key).2 = (inorder t).filter (fun p => ¬p.1 ≤ key) := by
  induction t with
  | nil => simp [split_le, inorder]
  | node l r s k v w ihl ihr =>
    rw [bst_node_iff] at h
    obtain ⟨hbl, hbr, hlk, hkr⟩ := h
    by_cases hc : key < k
    · have hknot : ¬k ≤ key := not_le.mpr hc
      have hrnot : ∀ p ∈ inorder r, ¬p.1 ≤ key := fun p hp =>
        not_le.mpr (lt_trans hc (hkr p.1 (mem_keys_of_mem_inorder hp)))
      have hfr : (inorder r).filter (fun p => decide (p.1 ≤ key)) = [] := by
        rw [List.filter_eq_nil_iff]
        intro p hp
        simpa using hrnot p hp
      have hfr2 : (inorder r).filter (fun p => !decide (p.1 ≤ key)) = inorder r := by
        rw [List.filter_eq_self]
        intro p hp
        simpa using hrnot p hp
      constructor
      · simp only [split_le, if_pos hc, inorder, List.filter_append,
          List.filter_cons]
        rw [(ihl hbl).1]
        simp [hknot, hfr]
      · simp only [split_le, if_pos hc, inorder_mkNode, inorder,
          List.filter_append, List.filter_cons]
        rw [(ihl hbl).2]
        simp only [decide_not]
        simp [hknot, hfr2]
    · have hkyes : k ≤ key := not_lt.mp hc
      have hlyes : ∀ p ∈ inorder l, p.1 ≤ key := fun p hp =>
        le_of_lt (lt_of_lt_of_le (hlk p.1 (mem_keys_of_mem_inorder hp)) hkyes)
      have hfl : (inorder l).filter (fun p => decide (p.1 ≤ key)) = inorder l := by
        rw [List.filter_eq_self]
        intro p hp
        simpa using hlyes p hp
      have hfl2 : (inorder l).filter (fun p => !decide (p.1 ≤ key)) = [] := by
        rw [List.filter_eq_nil_iff]
        intro p hp
        simpa using hlyes p hp
      constructor
      · simp only [split_le, if_neg hc, inorder_mkNode, inorder,
          List.filter_append, List.filter_cons]
        rw [(ihr hbr).1]
        simp [hkyes, hfl]
      · simp only [split_le, if_neg hc, inorder, List.filter_append,
          List.filter_cons]
        rw [(ihr hbr).2]
        simp only [decide_not]
        simp [hkyes, hfl2]

end Order

end TreapMap

/-!
Lookup, minimum and in-place value replacement.
-/

namespace TreapMap

variable {K : Type u} {V : Type v}

theorem min_eq_none_iff (t : TreapMap K V) : min t = none ↔ t = nil := by
  cases t with
  | nil => simp [min]
  | node l r s k v w =>
    simp only [min]
    cases min l <;> simp

theorem min_eq_head (t : TreapMap K V) : min t = (inorder t).head? := by
  induction t with
  | nil => rfl
  | node l r s k v w ihl ihr =>
    show (match min l with
      | none => some (k, v)
      | some p => some p) = _
    rw [inorder, List.head?_append]
    cases hm : min l with
    | none =>
      have hl : l = nil := (min_eq_none_iff l).mp hm
      subst hl
      simp [inorder]
    | some p =>
      rw [← ihl, hm]
      simp

theorem len_replace_min (t : TreapMap K V) (nv : V) :
    (replace_min_value t nv).len = t.len := by
  induction t, nv using replace_min_value.induct with
  | case1 nv => rfl
  | case2 r s k v w nv => rfl
  | case3 a b s2 k2 v2 w2 r s k v w nv ih => rfl

theorem sizeOk_replace_min {t : TreapMap K V} (nv : V) (h : sizeOk t) :
    sizeOk (replace_min_value t nv) := by
  induction t, nv using replace_min_value.induct with
  | case1 nv => trivial
  | case2 r s k v w nv => exact h
  | case3 a b s2 k2 v2 w2 r s k v w nv ih =>
    obtain ⟨hs, hl, hr⟩ := h
    exact ⟨by rw [len_replace_min]; exact hs, ih hl, hr⟩

theorem replace_min_inorder (t : TreapMap K V) (nv : V) :
    inorder (replace_min_value t nv) =
      match inorder t with
      | [] => []
      | p :: rest => (p.1, nv) :: rest := by
  induction t, nv using replace_min_value.induct with
  | case1 nv => rfl
  | case2 r s k v w nv => simp [replace_min_value, inorder]
  | case3 a b s2 k2 v2 w2 r s k v w nv ih =>
    cases hL : inorder (node a b s2 k2 v2 w2) with
    | nil => exact absurd hL (by simp [inorder])
    | cons q rest =>
      have hfull : inorder (node (node a b s2 k2 v2 w2) r s k v w)
          = q :: (rest ++ (k, v) :: inorder r) := by
        rw [inorder, hL]
        rfl
      have hleft :
          inorder (replace_min_value (node (node a b s2 k2 v2 w2) r s k v w) nv)
            = ((q.1, nv) :: rest) ++ (k, v) :: inorder r := by
        rw [replace_min_value, inorder, ih, hL]
      rw [hleft, hfull]
      rfl

section Order

variable [LinearOrder K]

theorem get_kv_fst {t : TreapMap K V} {key : K} {p : K × V}
    (h : t.get_kv key = some p) : p.1 = key := by
  induction t with
  | nil => simp [get_kv] at h
  | node l r s k v w ihl ihr =>
    simp only [get_kv] at h
    by_cases h1 : key < k
    · rw [if_pos h1] at h
      exact ihl h
    · rw [if_neg h1] at h
      by_cases h2 : k < key
      · rw [if_pos h2] at h
        exact ihr h
      · rw [if_neg h2] at h
        cases h
        exact le_antisymm (not_lt.mp h1) (not_lt.mp h2)

theorem get_kv_some_iff {t : TreapMap K V} (h : bst t) {key : K} {v : V} :
    t.get_kv key = some (key, v) ↔ (key, v) ∈ inorder t := by
  induction t with
  | nil => simp [get_kv, inorder]
  | node l r s k v0 w ihl ihr =>
    rw [bst_node_iff] at h
    obtain ⟨hbl, hbr, hlk, hkr⟩ := h
    by_cases h1 : key < k
    · have hnotr : (key, v) ∉ inorder r := fun hm =>
        lt_asymm h1 (hkr key (mem_keys_of_mem_inorder hm))
      have hne : (key, v) ≠ (k, v0) := fun he =>
        ne_of_lt h1 (congrArg Prod.fst he)
      simp only [get_kv, if_pos h1, inorder, List.mem_append, List.mem_cons]
      rw [ihl hbl]
      constructor
      · exact Or.inl
      · rintro (hm | hm | hm)
        · exact hm
        · exact absurd hm hne
        · exact absurd hm hnotr
    · by_cases h2 : k < key
      · have hnotl : (key, v) ∉ inorder l := fun hm =>
          lt_asymm h2 (hlk key (mem_keys_of_mem_inorder hm))
        have hne : (key, v) ≠ (k, v0) := fun he =>
          ne_of_gt h2 (congrArg Prod.fst he)
        simp only [get_kv, if_neg h1, if_pos h2, inorder, List.mem_append,
          List.mem_cons]
        rw [ihr hbr]
        constructor
        · exact fun hm => Or.inr (Or.inr hm)
        · rintro (hm | hm | hm)
          · exact absurd hm hnotl
          · exact absurd hm hne
          · exact hm
      · have hk : k = key := le_antisymm (not_lt.mp h1) (not_lt.mp h2)
        subst hk
        have hnotl : (k, v) ∉ inorder l := fun hm =>
          lt_irrefl k (hlk k (mem_keys_of_mem_inorder hm))
        have hnotr : (k, v) ∉ inorder r := fun hm =>
          lt_irrefl k (hkr k (mem_keys_of_mem_inorder hm))
        simp only [get_kv, if_neg h1, if_neg h2, inorder, List.mem_append,
          List.mem_cons]
        constructor
        · intro hv
          exact Or.inr (Or.inl (Option.some_inj.mp hv).symm)
        · rintro (hm | hm | hm)
          · exact absurd hm hnotl
          · rw [hm]
          · exact absurd hm hnotr

theorem get_kv_none_iff {t : TreapMap K V} (h : bst t) (key : K) :
    t.get_kv key = none ↔ key ∉ keys t := by
  induction t with
  | nil => simp [get_kv, keys, inorder]
  | node l r s k v w ihl ihr =>
    rw [bst_node_iff] at h
    obtain ⟨hbl, hbr, hlk, hkr⟩ := h
    simp only [get_kv, keys_node, List.mem_append, List.mem_cons]
    by_cases h1 : key < k
    · have e1 : key ≠ k := ne_of_lt h1
      have e2 : key ∉ keys r := fun hm => lt_asymm h1 (hkr key hm)
      rw [if_pos h1, ihl hbl]
      simp [e1, e2]
    · by_cases h2 : k < key
      · have e1 : key ≠ k := ne_of_gt h2
        have e2 : key ∉ keys l := fun hm => lt_asymm h2 (hlk key hm)
        rw [if_neg h1, if_pos h2, ihr hbr]
        simp [e1, e2]
      · have hk : k = key := le_antisymm (not_lt.mp h1) (not_lt.mp h2)
        rw [if_neg h1, if_neg h2]
        simp [hk]

theorem get_some_iff {t : TreapMap K V} (h : bst t) {key : K} {v : V} :
    t.get key = some v ↔ (key, v) ∈ inorder t := by
  unfold get
  constructor
  · intro hm
    obtain ⟨p, hp, hv⟩ := Option.map_eq_some'.mp hm
    obtain ⟨p1, p2⟩ := p
    have h1 : p1 = key := get_kv_fst hp
    subst h1
    have h2 : p2 = v := hv
    subst h2
    exact (get_kv_some_iff h).mp hp
  · intro hm
    rw [(get_kv_some_iff h).mpr hm]
    rfl

theorem get_none_iff {t : TreapMap K V} (h : bst t) (key : K) :
    t.get key = none ↔ key ∉ keys t := by
  unfold get
  rw [Option.map_eq_none']
  exact get_kv_none_iff h key

end Order

end TreapMap

/-!
Facts about filters of key-sorted pair lists.
-/

namespace TreapMap

variable {K : Type u} {V : Type v}

section Order

variable [LinearOrder K]

theorem sorted_filter_lt_append {l : List (K × V)} (key : K)
    (h : (l.map Prod.fst).Pairwise (· < ·)) :
    l.filter (fun p => p.1 < key) ++ l.filter (fun p => ¬p.1 < key) = l := by
  induction l with
  | nil => simp
  | cons x rest ih =>
    rw [List.map_cons, List.pairwise_cons] at h
    obtain ⟨hx, hrest⟩ := h
    by_cases hc : x.1 < key
    · rw [List.filter_cons, List.filter_cons, if_pos (by simp [hc]),
        if_neg (by simp [hc]), List.cons_append, ih hrest]
    · have hall : ∀ p ∈ rest, ¬p.1 < key := fun p hp hlt =>
        hc (lt_trans (hx p.1 (List.mem_map_of_mem Prod.fst hp)) hlt)
      have h1 : rest.filter (fun p => decide (p.1 < key)) = [] :=
        List.filter_eq_nil_iff.mpr fun p hp => by simpa using hall p hp
      have h2 : rest.filter (fun p => decide ¬p.1 < key) = rest :=
        List.filter_eq_self.mpr fun p hp => by simpa using hall p hp
      rw [List.filter_cons, List.filter_cons, if_neg (by simp [hc]),
        if_pos (by simp [hc]), h1, h2, List.nil_append]

theorem sorted_filter_lt_gt {l : List (K × V)} (key : K)
    (h : (l.map Prod.fst).Pairwise (· < ·)) :
    l.filter (fun p => p.1 < key) ++ l.filter (fun p => key < p.1) =
      l.filter (fun p => p.1 ≠ key) := by
  induction l with
  | nil => simp
  | cons x rest ih =>
    rw [List.map_cons, List.pairwise_cons] at h
    obtain ⟨hx, hrest⟩ := h
    have hxr : ∀ p ∈ rest, x.1 < p.1 := fun p hp =>
      hx p.1 (List.mem_map_of_mem Prod.fst hp)
    rcases lt_trichotomy x.1 key with hc | hc | hc
    · rw [List.filter_cons, List.filter_cons, List.filter_cons,
        if_pos (by simp [hc]), if_neg (by simp [not_lt.mpr (le_of_lt hc)]),
        if_pos (by simp [ne_of_lt hc]), List.cons_append, ih hrest]
    · subst hc
      rw [List.filter_cons, List.filter_cons, List.filter_cons,
        if_neg (by simp), if_neg (by simp), if_neg (by simp)]
      exact ih hrest
    · have h1 : rest.filter (fun p => decide (p.1 < key)) = [] :=
        List.filter_eq_nil_iff.mpr fun p hp => by
          simpa using not_lt.mpr (le_of_lt (lt_trans hc (hxr p hp)))
      have h0 := ih hrest
      rw [h1, List.nil_append] at h0
      rw [List.filter_cons, List.filter_cons, List.filter_cons,
        if_neg (by simp [not_lt.mpr (le_of_lt hc)]), if_pos (by simp [hc]),
        if_pos (by simp [ne_of_gt hc]), h1, List.nil_append, h0]

theorem head_filter_ge {l : List (K × V)} {key : K} {v0 : V}
    (h : (l.map Prod.fst).Pairwise (· < ·)) (hm : (key, v0) ∈ l) :
    (l.filter (fun p => ¬p.1 < key)).head? = some (key, v0) := by
  induction l with
  | nil => cases hm
  | cons x rest ih =>
    rw [List.map_cons, List.pairwise_cons] at h
    obtain ⟨hx, hrest⟩ := h
    rcases List.mem_cons.mp hm with he | hm2
    · subst he
      rw [List.filter_cons, if_pos (by simp)]
      rfl
    · have hxlt : x.1 < key := hx key (List.mem_map_of_mem Prod.fst hm2)
      rw [List.filter_cons, if_neg (by simp [hxlt])]
      exact ih hrest hm2

theorem filter_eq_key_single {l : List (K × V)} {key : K} {v0 : V}
    (h : (l.map Prod.fst).Pairwise (· < ·)) (hm : (key, v0) ∈ l) :
    l.filter (fun p => p.1 = key) = [(key, v0)] := by
  induction l with
  | nil => cases hm
  | cons x rest ih =>
    rw [List.map_cons, List.pairwise_cons] at h
    obtain ⟨hx, hrest⟩ := h
    have hxr : ∀ p ∈ rest, x.1 < p.1 := fun p hp =>
      hx p.1 (List.mem_map_of_mem Prod.fst hp)
    rcases List.mem_cons.mp hm with he | hm2
    · subst he
      have h1 : rest.filter (fun p => decide (p.1 = key)) = [] :=
        List.filter_eq_nil_iff.mpr fun p hp => by
          simpa using ne_of_gt (hxr p hp)
      rw [List.filter_cons, if_pos (by simp), h1]
    · have hne : x.1 ≠ key := ne_of_lt (hx key (List.mem_map_of_mem Prod.fst hm2))
      rw [List.filter_cons, if_neg (by simp [hne])]
      exact ih hrest hm2

theorem filter_eq_key_nil {l : List (K × V)} {key : K}
    (hm : key ∉ l.map Prod.fst) :
    l.filter (fun p => p.1 = key) = [] := by
  rw [List.filter_eq_nil_iff]
  intro p hp
  simp only [decide_eq_true_eq]
  exact fun he => hm (he ▸ List.mem_map_of_mem Prod.fst hp)

theorem pairwise_filter_insert {ks : List K} (key : K)
    (h : ks.Pairwise (· < ·)) (hnk : key ∉ ks) :
    (ks.filter (fun a => a < key) ++
      key :: ks.filter (fun a => ¬a < key)).Pairwise (· < ·) := by
  rw [List.pairwise_append]
  refine ⟨h.sublist (List.filter_sublist ks), ?_, ?_⟩
  · rw [List.pairwise_cons]
    refine ⟨?_, h.sublist (List.filter_sublist ks)⟩
    intro b hb
    rw [List.mem_filter] at hb
    have hble : key ≤ b := not_lt.mp (by simpa using hb.2)
    exact lt_of_le_of_ne hble fun he => hnk (he ▸ hb.1)
  · intro a ha b hb
    rw [List.mem_filter] at ha
    have halt : a < key := by simpa using ha.2
    rcases List.mem_cons.mp hb with rfl | hb2
    · exact halt
    · rw [List.mem_filter] at hb2
      have hble : key ≤ b := not_lt.mp (by simpa using hb2.2)
      exact lt_of_lt_of_le halt hble

omit [LinearOrder K] in
theorem rootValue_of_inorder_single {t : TreapMap K V} {q : K × V}
    (h : inorder t = [q]) : t.rootValue = some q.2 := by
  cases t with
  | nil => simp [inorder] at h
  | node l r s k v w =>
    rw [inorder] at h
    have hlen := congrArg List.length h
    simp only [List.length_append, List.length_cons, List.length_nil] at hlen
    have hl : inorder l = [] := List.length_eq_zero.mp (by omega)
    have hr : inorder r = [] := List.length_eq_zero.mp (by omega)
    rw [hl, hr, List.nil_append] at h
    cases h
    rfl

end Order

end TreapMap

/-!
Characterization of `insert`.
-/

namespace TreapMap

variable {K : Type u} {V : Type v}

theorem map_fst_filter (q : K → Bool) (l : List (K × V)) :
    (l.filter (fun p => q p.1)).map Prod.fst = (l.map Prod.fst).filter q := by
  induction l with
  | nil => simp
  | cons x rest ih =>
    cases hq : q x.1 <;> simp [List.filter_cons, hq, ih]

section Order

variable [LinearOrder K]

theorem insert_present {t : TreapMap K V} {key : K} {v0 : V} (value : V) (w : Nat)
    (hwf : Wf t) (hv : t.get key = some v0) :
    (t.insert key value w).2 = some v0 ∧
      inorder (t.insert key value w).1 =
        (inorder t).filter (fun p => p.1 < key) ++ (key, value) ::
          ((inorder t).filter (fun p => ¬p.1 < key)).tail ∧
      sizeOk (t.insert key value w).1 ∧
      keys (t.insert key value w).1 = keys t := by
  obtain ⟨hsz, hbst⟩ := hwf
  have hbst' : ((inorder t).map Prod.fst).Pairwise (· < ·) := hbst
  have hmem : (key, v0) ∈ inorder t := (get_some_iff hbst).mp hv
  have hsp := split_lt_inorder key hbst
  have hhead : ((inorder t).filter (fun p => ¬p.1 < key)).head? = some (key, v0) :=
    head_filter_ge hbst' hmem
  have hrmin : (t.split_lt key).2.min = some (key, v0) := by
    rw [min_eq_head, hsp.2]
    exact hhead
  have heq : t.insert key value w =
      (merge (t.split_lt key).1 ((t.split_lt key).2.replace_min_value value),
        some v0) := by
    simp only [insert, hrmin]
    simp
  cases hR : (inorder t).filter (fun p => ¬p.1 < key) with
  | nil =>
    rw [hR] at hhead
    simp at hhead
  | cons q tail =>
    have hq : q = (key, v0) := by
      rw [hR] at hhead
      simpa using hhead
    have hino : inorder (t.insert key value w).1 =
        (inorder t).filter (fun p => p.1 < key) ++ (key, value) :: tail := by
      rw [heq]
      show inorder (merge (t.split_lt key).1
        ((t.split_lt key).2.replace_min_value value)) = _
      rw [merge_inorder, hsp.1, replace_min_inorder, hsp.2, hR, hq]
    refine ⟨by rw [heq], ?_, ?_, ?_⟩
    · simp only [hino, hR, List.tail_cons]
    · rw [heq]
      exact sizeOk_merge (sizeOk_split_lt key hsz).1
        (sizeOk_replace_min _ (sizeOk_split_lt key hsz).2)
    · have hpart : (inorder t).filter (fun p => p.1 < key) ++
          (inorder t).filter (fun p => ¬p.1 < key) = inorder t :=
        sorted_filter_lt_append key hbst'
      unfold keys
      conv_rhs => rw [← hpart]
      rw [hino, hR, hq]
      simp [List.map_append]

end Order

end TreapMap

namespace TreapMap

variable {K : Type u} {V : Type v}

section Order

variable [LinearOrder K]

theorem insert_absent {t : TreapMap K V} {key : K} (value : V) (w : Nat)
    (hwf : Wf t) (hv : t.get key = none) :
    (t.insert key value w).2 = none ∧
      inorder (t.insert key value w).1 =
        (inorder t).filter (fun p => p.1 < key) ++ (key, value) ::
          (inorder t).filter (fun p => ¬p.1 < key) ∧
      sizeOk (t.insert key value w).1 := by
  obtain ⟨hsz, hbst⟩ := hwf
  have hnk : key ∉ keys t := (get_none_iff hbst key).mp hv
  have hsp := split_lt_inorder key hbst
  have heq : t.insert key value w =
      (merge (merge (t.split_lt key).1 (newNode key value w)) (t.split_lt key).2,
        none) := by
    cases hmin : (t.split_lt key).2.min with
    | none => simp only [insert, hmin]
    | some p =>
      obtain ⟨k0, v0⟩ := p
      have h1 : ((inorder t).filter (fun p => ¬p.1 < key)).head? = some (k0, v0) := by
        rw [← hsp.2, ← min_eq_head]
        exact hmin
      have h2 : (k0, v0) ∈ (inorder t).filter (fun p => ¬p.1 < key) :=
        List.mem_of_mem_head? (by rw [h1]; rfl)
      have h3 : (k0, v0) ∈ inorder t := (List.mem_filter.mp h2).1
      have hk0 : ¬k0 = key := fun he =>
        hnk (he ▸ mem_keys_of_mem_inorder h3)
      simp only [insert, hmin]
      rw [if_neg hk0]
  refine ⟨by rw [heq], ?_, ?_⟩
  · have : inorder (t.insert key value w).1 =
        inorder (merge (merge (t.split_lt key).1 (newNode key value w))
          (t.split_lt key).2) := by rw [heq]
    rw [this, merge_inorder, merge_inorder, hsp.1, hsp.2]
    simp [newNode, inorder]
  · rw [heq]
    exact sizeOk_merge
      (sizeOk_merge (sizeOk_split_lt key hsz).1 (sizeOk_newNode key value w))
      (sizeOk_split_lt key hsz).2

end Order

end TreapMap

namespace TreapMap

variable {K : Type u} {V : Type v}

section Order

variable [LinearOrder K]

theorem insert_keys_absent {t : TreapMap K V} (key : K) (value : V) (w : Nat)
    (hwf : Wf t) (hv : t.get key = none) :
    keys (t.insert key value w).1 =
      (keys t).filter (fun a => a < key) ++
        key :: (keys t).filter (fun a => ¬a < key) := by
  have h := insert_absent value w hwf hv
  unfold keys
  rw [h.2.1, List.map_append, List.map_cons,
    map_fst_filter (fun a => decide (a < key)) (inorder t),
    map_fst_filter (fun a => decide ¬a < key) (inorder t)]

theorem insert_bst {t : TreapMap K V} (key : K) (value : V) (w : Nat)
    (hwf : Wf t) : bst (t.insert key value w).1 := by
  cases hv : t.get key with
  | some v0 =>
    have h := insert_present value w hwf hv
    show (keys (t.insert key value w).1).Pairwise (· < ·)
    rw [h.2.2.2]
    exact hwf.2
  | none =>
    have hnk : key ∉ keys t := (get_none_iff hwf.2 key).mp hv
    show (keys (t.insert key value w).1).Pairwise (· < ·)
    rw [insert_keys_absent key value w hwf hv]
    exact pairwise_filter_insert key hwf.2 hnk

theorem insert_wf {t : TreapMap K V} (key : K) (value : V) (w : Nat)
    (hwf : Wf t) : Wf (t.insert key value w).1 := by
  refine ⟨?_, insert_bst key value w hwf⟩
  cases hv : t.get key with
  | some v0 => exact (insert_present value w hwf hv).2.2.1
  | none => exact (insert_absent value w hwf hv).2.2

theorem insert_len_present {t : TreapMap K V} {key : K} {v0 : V}
    (value : V) (w : Nat) (hwf : Wf t) (hv : t.get key = some v0) :
    (t.insert key value w).1.len = t.len := by
  have h := insert_present value w hwf hv
  have hlen := congrArg List.length h.2.2.2
  simp only [keys, List.length_map] at hlen
  rw [len_eq_length _ h.2.2.1, len_eq_length t hwf.1]
  exact hlen

theorem insert_len_absent {t : TreapMap K V} {key : K}
    (value : V) (w : Nat) (hwf : Wf t) (hv : t.get key = none) :
    (t.insert key value w).1.len = t.len + 1 := by
  have h := insert_absent value w hwf hv
  have hbst' : ((inorder t).map Prod.fst).Pairwise (· < ·) := hwf.2
  have hpart := sorted_filter_lt_append key hbst'
  rw [len_eq_length _ h.2.2, len_eq_length t hwf.1, h.2.1]
  conv_rhs => rw [← hpart]
  simp [List.length_append]
  omega

theorem insert_get {t : TreapMap K V} (key : K) (value : V) (w : Nat)
    (hwf : Wf t) : (t.insert key value w).1.get key = some value := by
  rw [get_some_iff (insert_bst key value w hwf)]
  cases hv : t.get key with
  | some v0 =>
    rw [(insert_present value w hwf hv).2.1]
    exact List.mem_append_right _ (List.mem_cons_self _ _)
  | none =>
    rw [(insert_absent value w hwf hv).2.1]
    exact List.mem_append_right _ (List.mem_cons_self _ _)

theorem insert_keys_toFinset {t : TreapMap K V} (key : K) (value : V) (w : Nat)
    (hwf : Wf t) :
    (keys (t.insert key value w).1).toFinset =
      Insert.insert key (keys t).toFinset := by
  cases hv : t.get key with
  | some v0 =>
    have h := insert_present value w hwf hv
    rw [h.2.2.2]
    have hmem : key ∈ (keys t).toFinset := by
      rw [List.mem_toFinset]
      exact mem_keys_of_mem_inorder ((get_some_iff hwf.2).mp hv)
    exact (Finset.insert_eq_self.mpr hmem).symm
  | none =>
    rw [insert_keys_absent key value w hwf hv]
    ext a
    simp only [List.toFinset_append, List.toFinset_cons, Finset.mem_union,
      Finset.mem_insert, List.mem_toFinset, List.mem_filter]
    by_cases hc : a < key <;> by_cases he : a = key <;> simp [hc, he]

theorem insert_present_inorder_subst {t : TreapMap K V} {key : K} {v0 : V}
    (value : V) (w : Nat) (hwf : Wf t) (hv : t.get key = some v0) :
    inorder (t.insert key value w).1 =
      (inorder t).map (fun p => if p.1 = key then (key, value) else p) := by
  obtain ⟨hsz, hbst⟩ := hwf
  have hbst' : ((inorder t).map Prod.fst).Pairwise (· < ·) := hbst
  have hmem := (get_some_iff hbst).mp hv
  have hhead := head_filter_ge hbst' hmem
  have hpart := sorted_filter_lt_append key hbst'
  cases hR : (inorder t).filter (fun p => ¬p.1 < key) with
  | nil =>
    rw [hR] at hhead
    simp at hhead
  | cons q tail =>
    have hq : q = (key, v0) := by
      rw [hR] at hhead
      simpa using hhead
    subst hq
    have hinoT : inorder t =
        (inorder t).filter (fun p => p.1 < key) ++ (key, v0) :: tail := by
      conv_lhs => rw [← hpart]
      rw [hR]
    have h := (insert_present value w ⟨hsz, hbst⟩ hv).2.1
    rw [hR] at h
    simp only [List.tail_cons] at h
    have hRk : (key :: tail.map Prod.fst).Pairwise (· < ·) := by
      have h0 : (((inorder t).filter (fun p => ¬p.1 < key)).map Prod.fst).Pairwise
          (· < ·) := by
        rw [map_fst_filter (fun a => decide ¬a < key) (inorder t)]
        exact hbst'.sublist (List.filter_sublist _)
      rw [hR] at h0
      simpa using h0
    have htail : ∀ p ∈ tail, key < p.1 := fun p hp =>
      (List.pairwise_cons.mp hRk).1 p.1 (List.mem_map_of_mem Prod.fst hp)
    rw [h]
    conv_rhs => rw [hinoT]
    rw [List.map_append, List.map_cons]
    have hL : ((inorder t).filter (fun p => p.1 < key)).map
        (fun p => if p.1 = key then (key, value) else p)
        = (inorder t).filter (fun p => p.1 < key) := by
      have harg : ∀ p ∈ (inorder t).filter (fun p => p.1 < key),
          (if p.1 = key then (key, value) else p) = id p := by
        intro p hp
        have hlt : p.1 < key := by simpa using (List.mem_filter.mp hp).2
        simp [ne_of_lt hlt]
      rw [List.map_congr_left harg, List.map_id]
    have hT : tail.map (fun p => if p.1 = key then (key, value) else p) = tail := by
      have harg : ∀ p ∈ tail,
          (if p.1 = key then (key, value) else p) = id p := by
        intro p hp
        simp [ne_of_gt (htail p hp)]
      rw [List.map_congr_left harg, List.map_id]
    rw [hL, hT]
    simp

end Order

end TreapMap

namespace TreapMap

variable {K : Type u} {V : Type v}

theorem wf_nil [LinearOrder K] : Wf (nil : TreapMap K V) :=
  ⟨trivial, List.Pairwise.nil⟩

section Order

variable [LinearOrder K]

theorem insertAll_go (l : List (K × V × Nat)) :
    ∀ t : TreapMap K V, Wf t →
      Wf (l.foldl (fun t x => (t.insert x.1 x.2.1 x.2.2).1) t) ∧
      (keys (l.foldl (fun t x => (t.insert x.1 x.2.1 x.2.2).1) t)).toFinset =
        (keys t).toFinset ∪ (l.map (fun x => x.1)).toFinset := by
  induction l with
  | nil =>
    intro t hwf
    exact ⟨hwf, by simp⟩
  | cons x rest ih =>
    intro t hwf
    have hwf' := insert_wf x.1 x.2.1 x.2.2 hwf
    obtain ⟨h1, h2⟩ := ih (t.insert x.1 x.2.1 x.2.2).1 hwf'
    refine ⟨h1, ?_⟩
    rw [List.foldl_cons, h2, insert_keys_toFinset x.1 x.2.1 x.2.2 hwf,
      List.map_cons, List.toFinset_cons, Finset.insert_union, Finset.union_insert]

theorem insertAll_len (l : List (K × V × Nat)) :
    (insertAll l : TreapMap K V).len = (l.map (fun x => x.1)).toFinset.card := by
  obtain ⟨hwf, hfin⟩ := insertAll_go l nil wf_nil
  have hnd : (keys (l.foldl (fun t x => (t.insert x.1 x.2.1 x.2.2).1) nil)).Nodup :=
    hwf.2.imp ne_of_lt
  have hcard := List.toFinset_card_of_nodup hnd
  show (l.foldl (fun t x => (t.insert x.1 x.2.1 x.2.2).1) nil).len = _
  rw [len_eq_length _ hwf.1, ← List.length_map _ Prod.fst]
  show (keys _).length = _
  rw [← hcard, hfin]
  simp [keys, inorder]

end Order

end TreapMap

namespace TreapMap

variable {K : Type u} {V : Type v}

/-- C3: for every well-formed map, key `k`, value `v` and fresh weight,
`insert` returns the previously stored value (`none` when `k` was absent);
on a present key it leaves `len` unchanged and only replaces the stored value
in place (the in-order sequence is the old one with `k`'s value substituted,
so no node is created); on an absent key it grows `len` by exactly one;
afterwards `get k` yields `v`; and after any sequence of inserts into the
empty map, `len` equals the number of distinct keys inserted. -/
theorem C3_insert_spec [LinearOrder K] (t : TreapMap K V) (k : K) (v : V)
    (w : Nat) (hwf : Wf t) :
    (t.insert k v w).2 = t.get k ∧
      (∀ v0, t.get k = some v0 →
        (t.insert k v w).1.len = t.len ∧
          inorder (t.insert k v w).1 =
            (inorder t).map (fun p => if p.1 = k then (k, v) else p)) ∧
      (t.get k = none → (t.insert k v w).1.len = t.len + 1) ∧
      (t.insert k v w).1.get k = some v ∧
      ∀ l : List (K × V × Nat),
        (insertAll l : TreapMap K V).len =
          (l.map (fun x => x.1)).toFinset.card := by
  refine ⟨?_, ?_, ?_, insert_get k v w hwf, insertAll_len⟩
  · cases hv : t.get k with
    | some v0 =>
      rw [(insert_present v w hwf hv).1]
    | none =>
      rw [(insert_absent v w hwf hv).1]
  · intro v0 hv
    exact ⟨insert_len_present v w hwf hv,
      insert_present_inorder_subst v w hwf hv⟩
  · intro hv
    exact insert_len_absent v w hwf hv

/-- Witness for C3 at a concrete two-node map and a concrete insert sequence
with one duplicated key. -/
theorem C3_insert_spec_witness :
    Wf (node (node nil nil 1 1 10 4) nil 2 2 20 3 : TreapMap ℕ ℕ) ∧
      ((node (node nil nil 1 1 10 4) nil 2 2 20 3 : TreapMap ℕ ℕ).insert
          2 99 7).2 =
        (node (node nil nil 1 1 10 4) nil 2 2 20 3 : TreapMap ℕ ℕ).get 2 ∧
      (insertAll [(1, 10, 5), (1, 20, 6), (4, 40, 2)] : TreapMap ℕ ℕ).len = 2 := by
  refine ⟨by decide, ?_, ?_⟩
  · exact (C3_insert_spec (node (node nil nil 1 1 10 4) nil 2 2 20 3) 2 99 7
      (by decide)).1
  · exact ((C3_insert_spec (node (node nil nil 1 1 10 4) nil 2 2 20 3) 2 99 7
      (by decide)).2.2.2.2 [(1, 10, 5), (1, 20, 6), (4, 40, 2)]).trans (by decide)

end TreapMap

namespace TreapMap

variable {K : Type u} {V : Type v}

section Order

variable [LinearOrder K]

theorem split_lt_bst {t : TreapMap K V} (key : K) (h : bst t) :
    bst (t.split_lt key).1 ∧ bst (t.split_lt key).2 := by
  have hb : ((inorder t).map Prod.fst).Pairwise (· < ·) := h
  have hsp := split_lt_inorder key h
  constructor
  · show (keys (t.split_lt key).1).Pairwise (· < ·)
    unfold keys
    rw [hsp.1, map_fst_filter (fun a => decide (a < key)) (inorder t)]
    exact hb.sublist (List.filter_sublist _)
  · show (keys (t.split_lt key).2).Pairwise (· < ·)
    unfold keys
    rw [hsp.2, map_fst_filter (fun a => decide ¬a < key) (inorder t)]
    exact hb.sublist (List.filter_sublist _)

/-- C4: `remove k` returns the value previously stored under `k` (`none` when
`k` was absent), afterwards `get k` is absent, and the in-order sequence of the
remaining pairs is exactly the old sequence with `k`'s entry dropped. -/
theorem C4_remove_spec (t : TreapMap K V) (k : K) (hwf : Wf t) :
    (t.remove k).2 = t.get k ∧
      (t.remove k).1.get k = none ∧
      inorder (t.remove k).1 = (inorder t).filter (fun p => p.1 ≠ k) := by
  obtain ⟨hsz, hbst⟩ := hwf
  have hbst' : ((inorder t).map Prod.fst).Pairwise (· < ·) := hbst
  have hsp := split_lt_inorder k hbst
  have hbstr : bst (t.split_lt k).2 := (split_lt_bst k hbst).2
  have hsple := split_le_inorder k hbstr
  have hm : inorder ((t.split_lt k).2.split_le k).1 =
      (inorder t).filter (fun p => p.1 = k) := by
    rw [hsple.1, hsp.2, List.filter_filter]
    apply List.filter_congr
    intro p hp
    by_cases he : p.1 = k
    · simp [he]
    · by_cases hlt : p.1 < k
      · simp [hlt, he]
      · have hgt : k < p.1 :=
          lt_of_le_of_ne (not_lt.mp hlt) fun hx => he hx.symm
        simp [hlt, he, not_le.mpr hgt]
  have hr2 : inorder ((t.split_lt k).2.split_le k).2 =
      (inorder t).filter (fun p => k < p.1) := by
    rw [hsple.2, hsp.2, List.filter_filter]
    apply List.filter_congr
    intro p hp
    by_cases hlt : p.1 < k
    · simp [hlt, le_of_lt hlt, lt_asymm hlt]
    · by_cases he : p.1 = k
      · simp [he]
      · have hgt : k < p.1 :=
          lt_of_le_of_ne (not_lt.mp hlt) fun hx => he hx.symm
        simp [hlt, not_le.mpr hgt, hgt]
  have hres1 : (t.remove k).1 =
      merge (t.split_lt k).1 ((t.split_lt k).2.split_le k).2 := rfl
  have hres2 : (t.remove k).2 = ((t.split_lt k).2.split_le k).1.rootValue := rfl
  have hino : inorder (t.remove k).1 = (inorder t).filter (fun p => p.1 ≠ k) := by
    rw [hres1, merge_inorder, hsp.1, hr2]
    exact sorted_filter_lt_gt k hbst'
  have hbres : bst (t.remove k).1 := by
    show (keys (t.remove k).1).Pairwise (· < ·)
    unfold keys
    rw [hino, map_fst_filter (fun a => decide (a ≠ k)) (inorder t)]
    exact hbst'.sublist (List.filter_sublist _)
  refine ⟨?_, ?_, hino⟩
  · rw [hres2]
    cases hv : t.get k with
    | some v0 =>
      have hmem := (get_some_iff hbst).mp hv
      have hms : inorder ((t.split_lt k).2.split_le k).1 = [(k, v0)] := by
        rw [hm]
        exact filter_eq_key_single hbst' hmem
      exact rootValue_of_inorder_single hms
    | none =>
      have hnk : k ∉ keys t := (get_none_iff hbst k).mp hv
      have hms : inorder ((t.split_lt k).2.split_le k).1 = [] := by
        rw [hm]
        exact filter_eq_key_nil hnk
      rw [(inorder_eq_nil_iff _).mp hms]
      rfl
  · rw [get_none_iff hbres k]
    intro hmem
    unfold keys at hmem
    rw [hino, map_fst_filter (fun a => decide (a ≠ k)) (inorder t)] at hmem
    have := (List.mem_filter.mp hmem).2
    simp at this

/-- Witness for C4 at a concrete two-node map with the removed key present. -/
theorem C4_remove_spec_witness :
    Wf (node (node nil nil 1 1 10 4) nil 2 2 20 3 : TreapMap ℕ ℕ) ∧
      ((node (node nil nil 1 1 10 4) nil 2 2 20 3 : TreapMap ℕ ℕ).remove 1).2 =
        (node (node nil nil 1 1 10 4) nil 2 2 20 3 : TreapMap ℕ ℕ).get 1 ∧
      ((node (node nil nil 1 1 10 4) nil 2 2 20 3 : TreapMap ℕ ℕ).remove 1).1.get 1
        = none := by
  refine ⟨by decide, ?_, ?_⟩
  · exact (C4_remove_spec (node (node nil nil 1 1 10 4) nil 2 2 20 3) 1
      (by decide)).1
  · exact (C4_remove_spec (node (node nil nil 1 1 10 4) nil 2 2 20 3) 1
      (by decide)).2.1

end Order

end TreapMap

namespace TreapMap

variable {K : Type u} {V : Type v}

/-- C5: when every key of `L` is strictly below every key of `R`, the in-order
sequence of `merge L R` is `L`'s sequence followed by `R`'s.  (The proof shows
this holds for the in-order sequences regardless of the precondition, which is
only needed for the result to be a valid search tree.) -/
theorem C5_merge_ordered [LinearOrder K] (L R : TreapMap K V)
    (_sep : ∀ a ∈ keys L, ∀ b ∈ keys R, a < b) :
    inorder (merge L R) = inorder L ++ inorder R :=
  merge_inorder L R

/-- Witness for C5 at two concrete single-node trees with separated keys. -/
theorem C5_merge_ordered_witness :
    (∀ a ∈ keys (node nil nil 1 1 10 4 : TreapMap ℕ ℕ),
        ∀ b ∈ keys (node nil nil 1 5 50 2 : TreapMap ℕ ℕ), a < b) ∧
      inorder (merge (node nil nil 1 1 10 4) (node nil nil 1 5 50 2) :
          TreapMap ℕ ℕ) =
        inorder (node nil nil 1 1 10 4 : TreapMap ℕ ℕ) ++
          inorder (node nil nil 1 5 50 2 : TreapMap ℕ ℕ) := by
  refine ⟨by decide, ?_⟩
  exact C5_merge_ordered (node nil nil 1 1 10 4) (node nil nil 1 5 50 2)
    (by decide)

/-- C6: merging the two halves returned by `split_lt` reproduces a tree with
exactly the original in-order sequence, for every tree and every pivot key. -/
theorem C6_split_merge_roundtrip [LinearOrder K] (t : TreapMap K V) (k : K) :
    inorder (merge (t.split_lt k).1 (t.split_lt k).2) = inorder t := by
  rw [merge_inorder]
  exact split_lt_concat t k

end TreapMap

namespace TreapMap

variable {K : Type u} {V : Type v}

section Order

variable [LinearOrder K]

theorem num_lt_spec (t : TreapMap K V) (key : K) (hs : sizeOk t) (hb : bst t) :
    t.num_lt key = (inorder t).countP (fun p => p.1 < key) := by
  induction t with
  | nil => simp [num_lt, inorder]
  | node l r s k v w ihl ihr =>
    obtain ⟨hsz, hsl, hsr⟩ := hs
    rw [bst_node_iff] at hb
    obtain ⟨hbl, hbr, hlk, hkr⟩ := hb
    by_cases hc : key ≤ k
    · have h1 : ¬k < key := not_lt.mpr hc
      have h2 : (inorder r).countP (fun p => decide (p.1 < key)) = 0 := by
        rw [List.countP_eq_zero]
        intro p hp
        have hgt := hkr p.1 (mem_keys_of_mem_inorder hp)
        simpa using not_lt.mpr (le_of_lt (lt_of_le_of_lt hc hgt))
      rw [num_lt, if_pos hc, inorder, List.countP_append, List.countP_cons]
      simp [h1, h2, ihl hsl hbl]
    · have hkey : k < key := not_le.mp hc
      have h2 : (inorder l).countP (fun p => decide (p.1 < key)) =
          (inorder l).length := by
        rw [List.countP_eq_length]
        intro p hp
        simpa using lt_trans (hlk p.1 (mem_keys_of_mem_inorder hp)) hkey
      rw [num_lt, if_neg hc, inorder, List.countP_append, List.countP_cons]
      rw [len_eq_length l hsl, ihr hsr hbr, h2]
      simp [hkey]
      omega

omit [LinearOrder K] in
theorem nth_go_spec :
    ∀ t : TreapMap K V, sizeOk t → ∀ n, 1 ≤ n → n ≤ (inorder t).length →
      t.nth_go n = (inorder t)[n - 1]? := by
  intro t
  induction t with
  | nil =>
    intro _ n h1 h2
    simp [inorder] at h2
    omega
  | node l r s k v w ihl ihr =>
    intro hs n h1 h2
    obtain ⟨hsz, hsl, hsr⟩ := hs
    have hlA : l.len = (inorder l).length := len_eq_length l hsl
    rw [inorder, List.length_append, List.length_cons] at h2
    by_cases hc : n ≤ l.len
    · rw [nth_go]
      simp only [if_pos hc]
      rw [ihl hsl n h1 (by omega), inorder,
        List.getElem?_append_left (by omega)]
    · by_cases hz : n - l.len - 1 = 0
      · have hn : n = l.len + 1 := by omega
        rw [nth_go]
        simp only [if_neg hc, if_pos hz]
        rw [inorder, List.getElem?_append_right (by omega), hn]
        simp [hlA]
      · rw [nth_go]
        simp only [if_neg hc, if_neg hz]
        rw [ihr hsr (n - l.len - 1) (by omega) (by omega), inorder,
          List.getElem?_append_right (by omega)]
        have hidx : n - 1 - (inorder l).length = n - l.len - 1 := by omega
        rw [hidx]
        have hs2 : n - l.len - 1 = (n - l.len - 2) + 1 := by omega
        rw [hs2, List.getElem?_cons_succ]
        simp

theorem countP_lt_of_sorted {ks : List K} (h : ks.Pairwise (· < ·)) :
    ∀ (i : Nat) (a : K), i < ks.length → ks[i]? = some a →
      ks.countP (fun b => b < a) = i := by
  induction ks with
  | nil => intro i a hi; simp at hi
  | cons x rest ih =>
    rw [List.pairwise_cons] at h
    obtain ⟨hx, hrest⟩ := h
    intro i a hi ha
    cases i with
    | zero =>
      have hax : a = x := by simpa using ha.symm
      subst hax
      rw [List.countP_cons]
      have h0 : rest.countP (fun b => decide (b < a)) = 0 := by
        rw [List.countP_eq_zero]
        intro b hb
        simpa using not_lt.mpr (le_of_lt (hx b hb))
      simp [h0]
    | succ j =>
      have ha' : rest[j]? = some a := by simpa using ha
      have hmem : a ∈ rest := List.getElem?_mem ha'
      have hxa : x < a := hx a hmem
      rw [List.countP_cons, ih hrest j a (by simpa using hi) ha']
      simp [hxa]

/-- C7: for every well-formed tree and every index `i < len`, the order
statistic `nth_kv i` is present and `num_lt` of the key it returns is exactly
`i`. -/
theorem C7_rank_inverse (t : TreapMap K V) (hwf : Wf t) (i : Nat)
    (hi : i < t.len) :
    ∃ p : K × V, t.nth_kv i = some p ∧ t.num_lt p.1 = i := by
  obtain ⟨hsz, hbst⟩ := hwf
  have hlen : t.len = (inorder t).length := len_eq_length t hsz
  have hn : t.nth_kv i = t.nth_go (i + 1) := by
    rw [nth_kv, if_neg (by omega)]
  have hgo := nth_go_spec t hsz (i + 1) (by omega) (by omega)
  have hi' : i < (inorder t).length := by omega
  refine ⟨(inorder t)[i], ?_, ?_⟩
  · rw [hn, hgo]
    simp [hi']
  · have hk : (keys t)[i]? = some ((inorder t)[i]).1 := by
      unfold keys
      rw [List.getElem?_map]
      simp [hi']
    rw [num_lt_spec t _ hsz hbst]
    have hcp : (inorder t).countP (fun p => decide (p.1 < ((inorder t)[i]).1)) =
        (keys t).countP (fun b => decide (b < ((inorder t)[i]).1)) := by
      unfold keys
      rw [List.countP_map]
      rfl
    rw [hcp]
    exact countP_lt_of_sorted hbst i _ (by unfold keys at *; simpa using hi') hk

/-- Witness for C7 at a concrete two-node map and index `1`. -/
theorem C7_rank_inverse_witness :
    Wf (node (node nil nil 1 1 10 4) nil 2 2 20 3 : TreapMap ℕ ℕ) ∧
      1 < (node (node nil nil 1 1 10 4) nil 2 2 20 3 : TreapMap ℕ ℕ).len ∧
      ∃ p : ℕ × ℕ,
        (node (node nil nil 1 1 10 4) nil 2 2 20 3 : TreapMap ℕ ℕ).nth_kv 1 =
            some p ∧
          (node (node nil nil 1 1 10 4) nil 2 2 20 3 : TreapMap ℕ ℕ).num_lt p.1
            = 1 := by
  refine ⟨by decide, by decide, ?_⟩
  exact C7_rank_inverse (node (node nil nil 1 1 10 4) nil 2 2 20 3) (by decide)
    1 (by decide)

end Order

end TreapMap

/-!
The linear-time bulk builder reproduces its input sequence in order.
-/

namespace TreapMap

variable {K : Type u} {V : Type v}

theorem build_pop_stackIno (w : Nat) :
    ∀ (st : List (NodeB K V)) (l : TreapMap K V),
      stackIno (build_pop w l st).2 ++ inorder (build_pop w l st).1 =
        stackIno st ++ inorder l := by
  intro st
  induction st with
  | nil => intro l; rfl
  | cons top rest ih =>
    intro l
    rw [build_pop]
    by_cases hc : w < top.weight
    · rw [if_pos hc, ih]
      simp [stackIno, NodeB.maintain, NodeB.toTree, inorder, List.append_assoc]
    · rw [if_neg hc]

theorem build_step_stackIno (st : List (NodeB K V)) (k : K) (v : V) (w : Nat) :
    stackIno (build_step st k v w) = stackIno st ++ [(k, v)] := by
  have h := build_pop_stackIno w st nil
  simp only [inorder, List.append_nil] at h
  unfold build_step
  show stackIno (build_pop w nil st).2 ++
    (inorder (build_pop w nil st).1 ++ [(k, v)]) = _
  rw [← List.append_assoc, h]

theorem build_pop_sublist (w : Nat) :
    ∀ (st : List (NodeB K V)) (l : TreapMap K V),
      ∀ e ∈ (build_pop w l st).2, e ∈ st := by
  intro st
  induction st with
  | nil =>
    intro l e he
    rw [build_pop] at he
    cases he
  | cons top rest ih =>
    intro l e he
    rw [build_pop] at he
    by_cases hc : w < top.weight
    · rw [if_pos hc] at he
      exact List.mem_cons_of_mem top (ih _ e he)
    · rw [if_neg hc] at he
      exact he

theorem build_foldl_rights (l : List (K × V × Nat)) :
    ∀ st : List (NodeB K V), (∀ e ∈ st, e.right = nil) →
      ∀ e ∈ l.foldl (fun st x => build_step st x.1 x.2.1 x.2.2) st,
        e.right = nil := by
  induction l with
  | nil => intro st h; exact h
  | cons x rest ih =>
    intro st h
    rw [List.foldl_cons]
    apply ih
    intro e he
    unfold build_step at he
    rcases List.mem_cons.mp he with rfl | he2
    · rfl
    · exact h e (build_pop_sublist x.2.2 st nil e he2)

theorem build_fold_inorder :
    ∀ (st : List (NodeB K V)) (e : NodeB K V),
      inorder (build_fold (e :: st)) =
        stackIno st ++ (inorder e.left ++ (e.key, e.value) :: inorder e.right) := by
  intro st
  induction st with
  | nil => intro e; simp [build_fold, NodeB.toTree, inorder, stackIno]
  | cons x rest ih =>
    intro e
    rw [build_fold, ih]
    simp [stackIno, NodeB.maintain, NodeB.toTree, inorder, List.append_assoc]

theorem build_foldl_stackIno (l : List (K × V × Nat)) :
    ∀ st : List (NodeB K V),
      stackIno (l.foldl (fun st x => build_step st x.1 x.2.1 x.2.2) st) =
        stackIno st ++ l.map (fun x => (x.1, x.2.1)) := by
  induction l with
  | nil => intro st; simp
  | cons x rest ih =>
    intro st
    rw [List.foldl_cons, ih, build_step_stackIno]
    simp

theorem from_unique_sorted_iter_inorder (l : List (K × V × Nat)) :
    inorder (from_unique_sorted_iter l : TreapMap K V) =
      l.map (fun x => (x.1, x.2.1)) := by
  unfold from_unique_sorted_iter
  have h := build_foldl_stackIno l []
  cases hst : l.foldl (fun st x => build_step st x.1 x.2.1 x.2.2) [] with
  | nil =>
    rw [hst] at h
    simp [stackIno] at h
    simp [build_fold, inorder, ← h]
  | cons e rest =>
    rw [hst] at h
    simp only [stackIno, List.nil_append] at h
    have hr : e.right = nil :=
      build_foldl_rights l [] (by simp) e (by rw [hst]; exact List.mem_cons_self e rest)
    rw [build_fold_inorder rest e, hr]
    simpa [inorder] using h

/-- C8: on a strictly key-sorted, duplicate-free input of any length (each pair
carrying the random weight drawn for its node), `from_unique_sorted_iter`
builds a tree whose in-order traversal is exactly the input sequence.  (The
in-order identity holds for every input; sortedness is the caller contract
under which the result is also a valid search tree.) -/
theorem C8_from_unique_sorted [LinearOrder K] (l : List (K × V × Nat))
    (_hsorted : (l.map (fun x => x.1)).Pairwise (· < ·)) :
    inorder (from_unique_sorted_iter l : TreapMap K V) =
      l.map (fun x => (x.1, x.2.1)) :=
  from_unique_sorted_iter_inorder l

/-- Witness for C8 on a concrete sorted three-element input, including the
evaluated output; the `n = 0` case is also exercised. -/
theorem C8_from_unique_sorted_witness :
    ([(1, 10, 5), (2, 20, 3), (4, 40, 9)].map
        (fun x : ℕ × ℕ × Nat => x.1)).Pairwise (· < ·) ∧
      inorder (from_unique_sorted_iter [(1, 10, 5), (2, 20, 3), (4, 40, 9)] :
          TreapMap ℕ ℕ) = [(1, 10), (2, 20), (4, 40)] ∧
      inorder (from_unique_sorted_iter ([] : List (ℕ × ℕ × Nat)) :
          TreapMap ℕ ℕ) = [] := by
  refine ⟨by decide, ?_, ?_⟩
  · exact (C8_from_unique_sorted [(1, 10, 5), (2, 20, 3), (4, 40, 9)]
      (by decide)).trans rfl
  · exact (C8_from_unique_sorted [] (by decide)).trans rfl

end TreapMap

/-!
Evaluation of `FromIterator::from_iter` on an input with a duplicated key: the
Rust code stably sorts and then calls `from_unique_sorted_iter` without any
deduplication, so both pairs survive into the tree.
-/

namespace TreapMap

theorem fromIter_dup_inorder :
    inorder (fromIter [(1, 10, 5), (1, 20, 7)] : TreapMap ℕ ℕ) =
      [(1, 10), (1, 20)] := by
  have hms : ([(1, 10, 5), (1, 20, 7)] : List (ℕ × ℕ × Nat)).mergeSort
      (fun x y => x.1 ≤ y.1) = [(1, 10, 5), (1, 20, 7)] :=
    List.mergeSort_of_sorted (by decide)
  unfold fromIter
  rw [if_neg (by decide), hms, from_unique_sorted_iter_inorder]
  rfl

/-- C1: the claim says `from_iter` stably sorts and removes all but the first
occurrence of each duplicated key.  The code stably sorts but never
deduplicates: on the input `[(1, 10), (1, 20)]` (with any node weights, here
`5` and `7`) the built tree's in-order traversal keeps both pairs instead of
the claimed `[(1, 10)]` — the dedup step the spec requires is missing from
`FromIterator::from_iter`. -/
theorem C1_fromIter_dup_eval :
    inorder (fromIter [(1, 10, 5), (1, 20, 7)] : TreapMap ℕ ℕ) =
        [(1, 10), (1, 20)] ∧
      inorder (fromIter [(1, 10, 5), (1, 20, 7)] : TreapMap ℕ ℕ) ≠ [(1, 10)] := by
  refine ⟨fromIter_dup_inorder, ?_⟩
  rw [fromIter_dup_inorder]
  decide

/-- C2: the claim says every tree reachable through the public interface has a
strictly increasing in-order key sequence.  The tree returned by the public
`FromIterator::from_iter` on `[(1, 10), (1, 20)]` has in-order keys `[1, 1]`,
which is not strictly increasing — the same missing-dedup code bug as C1. -/
theorem C2_fromIter_dup_breaks_bst :
    keys (fromIter [(1, 10, 5), (1, 20, 7)] : TreapMap ℕ ℕ) = [1, 1] ∧
      ¬bst (fromIter [(1, 10, 5), (1, 20, 7)] : TreapMap ℕ ℕ) := by
  have hkeys : keys (fromIter [(1, 10, 5), (1, 20, 7)] : TreapMap ℕ ℕ) = [1, 1] := by
    unfold keys
    rw [fromIter_dup_inorder]
    rfl
  refine ⟨hkeys, ?_⟩
  unfold bst
  rw [hkeys]
  decide

end TreapMap

/-!
Min-heap order on the random weights.
-/

namespace TreapMap

variable {K : Type u} {V : Type v}

theorem rootGe_trans {w w2 : Nat} (h : w ≤ w2) {t : TreapMap K V}
    (h2 : rootGe w2 t) : rootGe w t := by
  cases t with
  | nil => trivial
  | node l r s k v w3 => exact le_trans h h2

theorem rootGe_merge (w : Nat) {x y : TreapMap K V} (hx : rootGe w x)
    (hy : rootGe w y) : rootGe w (merge x y) := by
  cases x with
  | nil => simpa [merge] using hy
  | node xl xr xs xk xv xw =>
    cases y with
    | nil => simpa [merge] using hx
    | node yl yr ys yk yv yw =>
      rw [merge]
      by_cases hc : xw < yw
      · rw [if_pos hc]
        exact hx
      · rw [if_neg hc]
        exact hy

theorem heapOk_merge {x y : TreapMap K V} (hx : heapOk x) (hy : heapOk y) :
    heapOk (merge x y) := by
  induction x, y using merge.induct with
  | case1 y => simpa [merge] using hy
  | case2 xl xr xs xk xv xw => simpa [merge] using hx
  | case3 xl xr xs xk xv xw yl yr ys yk yv yw h ih =>
    rw [merge, if_pos h]
    obtain ⟨hg1, hg2, hh1, hh2⟩ := hx
    exact ⟨hg1, rootGe_merge xw hg2 (le_of_lt h), hh1, ih hh2 hy⟩
  | case4 xl xr xs xk xv xw yl yr ys yk yv yw h ih =>
    rw [merge, if_neg h]
    obtain ⟨hg1, hg2, hh1, hh2⟩ := hy
    exact ⟨rootGe_merge yw (not_lt.mp h) hg1, hg2, ih hx hh1, hh2⟩

theorem heapOk_split_lt [LinearOrder K] {t : TreapMap K V} (key : K)
    (h : heapOk t) :
    heapOk (t.split_lt key).1 ∧ heapOk (t.split_lt key).2 ∧
      ∀ w, rootGe w t →
        rootGe w (t.split_lt key).1 ∧ rootGe w (t.split_lt key).2 := by
  induction t with
  | nil => exact ⟨trivial, trivial, fun w _ => ⟨trivial, trivial⟩⟩
  | node l r s k v w0 ihl ihr =>
    obtain ⟨hgl, hgr, hhl, hhr⟩ := h
    by_cases hc : key ≤ k
    · obtain ⟨h1, h2, h3⟩ := ihl hhl
      simp only [split_lt, if_pos hc]
      refine ⟨h1, ⟨(h3 w0 hgl).2, hgr, h2, hhr⟩, ?_⟩
      intro w hw
      exact ⟨(h3 w (rootGe_trans hw hgl)).1, hw⟩
    · obtain ⟨h1, h2, h3⟩ := ihr hhr
      simp only [split_lt, if_neg hc]
      refine ⟨⟨hgl, (h3 w0 hgr).1, hhl, h1⟩, h2, ?_⟩
      intro w hw
      exact ⟨hw, (h3 w (rootGe_trans hw hgr)).2⟩

theorem heapOk_split_le [LinearOrder K] {t : TreapMap K V} (key : K)
    (h : heapOk t) :
    heapOk (t.split_le key).1 ∧ heapOk (t.split_le key).2 ∧
      ∀ w, rootGe w t →
        rootGe w (t.split_le key).1 ∧ rootGe w (t.split_le key).2 := by
  induction t with
  | nil => exact ⟨trivial, trivial, fun w _ => ⟨trivial, trivial⟩⟩
  | node l r s k v w0 ihl ihr =>
    obtain ⟨hgl, hgr, hhl, hhr⟩ := h
    by_cases hc : key < k
    · obtain ⟨h1, h2, h3⟩ := ihl hhl
      simp only [split_le, if_pos hc]
      refine ⟨h1, ⟨(h3 w0 hgl).2, hgr, h2, hhr⟩, ?_⟩
      intro w hw
      exact ⟨(h3 w (rootGe_trans hw hgl)).1, hw⟩
    · obtain ⟨h1, h2, h3⟩ := ihr hhr
      simp only [split_le, if_neg hc]
      refine ⟨⟨hgl, (h3 w0 hgr).1, hhl, h1⟩, h2, ?_⟩
      intro w hw
      exact ⟨hw, (h3 w (rootGe_trans hw hgr)).2⟩

theorem heapOk_split_n {t : TreapMap K V} (h : heapOk t) :
    ∀ n, heapOk (t.split_n n).1 ∧ heapOk (t.split_n n).2 ∧
      ∀ w, rootGe w t →
        rootGe w (t.split_n n).1 ∧ rootGe w (t.split_n n).2 := by
  induction t with
  | nil => exact fun n => ⟨trivial, trivial, fun w _ => ⟨trivial, trivial⟩⟩
  | node l r s k v w0 ihl ihr =>
    intro n
    obtain ⟨hgl, hgr, hhl, hhr⟩ := h
    by_cases hs : n ≥ s
    · simp only [split_n, if_pos hs]
      exact ⟨⟨hgl, hgr, hhl, hhr⟩, trivial, fun w hw => ⟨hw, trivial⟩⟩
    · by_cases hc : n ≤ l.len
      · obtain ⟨h1, h2, h3⟩ := ihl hhl n
        simp only [split_n, if_neg hs, if_pos hc]
        refine ⟨h1, ⟨(h3 w0 hgl).2, hgr, h2, hhr⟩, ?_⟩
        intro w hw
        exact ⟨(h3 w (rootGe_trans hw hgl)).1, hw⟩
      · obtain ⟨h1, h2, h3⟩ := ihr hhr (n - l.len - 1)
        simp only [split_n, if_neg hs, if_neg hc]
        refine ⟨⟨hgl, (h3 w0 hgr).1, hhl, h1⟩, h2, ?_⟩
        intro w hw
        exact ⟨hw, (h3 w (rootGe_trans hw hgr)).2⟩

theorem rootGe_replace_min {w : Nat} {t : TreapMap K V} (nv : V)
    (h : rootGe w t) : rootGe w (replace_min_value t nv) := by
  cases t with
  | nil => trivial
  | node l r s k v w2 =>
    cases l with
    | nil => exact h
    | node a b s2 k2 v2 w3 => exact h

theorem heapOk_replace_min {t : TreapMap K V} (nv : V) (h : heapOk t) :
    heapOk (replace_min_value t nv) := by
  induction t, nv using replace_min_value.induct with
  | case1 nv => trivial
  | case2 r s k v w nv => exact h
  | case3 a b s2 k2 v2 w2 r s k v w nv ih =>
    obtain ⟨hg1, hg2, hh1, hh2⟩ := h
    exact ⟨rootGe_replace_min nv hg1, hg2, ih hh1, hh2⟩

theorem heapOk_newNode (k : K) (v : V) (w : Nat) :
    heapOk (newNode k v w : TreapMap K V) :=
  ⟨trivial, trivial, trivial, trivial⟩

theorem heapOk_insert [LinearOrder K] {t : TreapMap K V} (key : K) (value : V)
    (w : Nat) (h : heapOk t) : heapOk (t.insert key value w).1 := by
  have hsp := heapOk_split_lt key h
  cases hmin : (t.split_lt key).2.min with
  | none =>
    simp only [insert, hmin]
    exact heapOk_merge (heapOk_merge hsp.1 (heapOk_newNode key value w)) hsp.2.1
  | some p =>
    obtain ⟨k0, v0⟩ := p
    by_cases he : k0 = key
    · simp only [insert, hmin]
      rw [if_pos he]
      exact heapOk_merge hsp.1 (heapOk_replace_min value hsp.2.1)
    · simp only [insert, hmin]
      rw [if_neg he]
      exact heapOk_merge (heapOk_merge hsp.1 (heapOk_newNode key value w)) hsp.2.1

theorem heapOk_remove [LinearOrder K] {t : TreapMap K V} (key : K)
    (h : heapOk t) : heapOk (t.remove key).1 := by
  have h1 := heapOk_split_lt key h
  have h2 := heapOk_split_le key h1.2.1
  exact heapOk_merge h1.1 h2.2.1

end TreapMap

namespace TreapMap

variable {K : Type u} {V : Type v}

theorem build_pop_heap (w : Nat) :
    ∀ (st : List (NodeB K V)) (l : TreapMap K V),
      heapOk l → rootGe w l →
      (∀ e ∈ st, heapOk e.toTree) →
      st.Pairwise (fun a b => b.weight ≤ a.weight) →
      (∀ top, st.head? = some top → rootGe top.weight l) →
      heapOk (build_pop w l st).1 ∧ rootGe w (build_pop w l st).1 ∧
        (∀ e ∈ (build_pop w l st).2, heapOk e.toTree) ∧
        (build_pop w l st).2.Pairwise (fun a b => b.weight ≤ a.weight) ∧
        ∀ e ∈ (build_pop w l st).2, e.weight ≤ w := by
  intro st
  induction st with
  | nil =>
    intro l hl hw _ _ _
    rw [build_pop]
    exact ⟨hl, hw, by simp, List.Pairwise.nil, by simp⟩
  | cons top rest ih =>
    intro l hl hw hst hsort hhead
    rw [build_pop]
    by_cases hc : w < top.weight
    · rw [if_pos hc]
      have htop := hst top (List.mem_cons_self top rest)
      obtain ⟨ht1, ht2, ht3, ht4⟩ := htop
      have hl' : heapOk (({ top with right := l } : NodeB K V).maintain).toTree :=
        ⟨ht1, hhead top rfl, ht3, hl⟩
      have hw' : rootGe w (({ top with right := l } : NodeB K V).maintain).toTree :=
        le_of_lt hc
      have hpw := List.pairwise_cons.mp hsort
      refine ih _ hl' hw' (fun e he => hst e (List.mem_cons_of_mem top he))
        hpw.2 ?_
      intro top2 h2
      show top2.weight ≤ top.weight
      apply hpw.1
      exact List.mem_of_mem_head? (by rw [h2]; rfl)
    · rw [if_neg hc]
      have hwle : top.weight ≤ w := not_lt.mp hc
      have hpw := List.pairwise_cons.mp hsort
      refine ⟨hl, hw, hst, hsort, ?_⟩
      intro e he
      rcases List.mem_cons.mp he with rfl | he2
      · exact hwle
      · exact le_trans (hpw.1 e he2) hwle

theorem build_step_heap (st : List (NodeB K V)) (k : K) (v : V) (w : Nat)
    (hst : ∀ e ∈ st, heapOk e.toTree)
    (hsort : st.Pairwise (fun a b => b.weight ≤ a.weight)) :
    (∀ e ∈ build_step st k v w, heapOk e.toTree) ∧
      (build_step st k v w).Pairwise (fun a b => b.weight ≤ a.weight) := by
  have h := build_pop_heap w st nil trivial trivial hst hsort
    (fun top _ => trivial)
  obtain ⟨h1, h2, h3, h4, h5⟩ := h
  constructor
  · intro e he
    unfold build_step at he
    rcases List.mem_cons.mp he with rfl | he2
    · exact ⟨h2, trivial, h1, trivial⟩
    · exact h3 e he2
  · unfold build_step
    rw [List.pairwise_cons]
    exact ⟨h5, h4⟩

theorem build_fold_heap :
    ∀ st : List (NodeB K V), (∀ e ∈ st, heapOk e.toTree) →
      st.Pairwise (fun a b => b.weight ≤ a.weight) →
      heapOk (build_fold st) := by
  intro st
  induction st using build_fold.induct with
  | case1 =>
    intro _ _
    rw [build_fold]
    trivial
  | case2 top =>
    intro h _
    rw [build_fold]
    exact h top (List.mem_cons_self top [])
  | case3 top x rest ih =>
    intro hh hs
    rw [build_fold]
    have hpw := List.pairwise_cons.mp hs
    have hpw2 := List.pairwise_cons.mp hpw.2
    apply ih
    · intro e he
      rcases List.mem_cons.mp he with rfl | he2
      · exact ⟨(hh x (List.mem_cons_of_mem top (List.mem_cons_self x rest))).1,
          hpw.1 x (List.mem_cons_self x rest),
          (hh x (List.mem_cons_of_mem top (List.mem_cons_self x rest))).2.2.1,
          hh top (List.mem_cons_self top (x :: rest))⟩
      · exact hh e (List.mem_cons_of_mem top (List.mem_cons_of_mem x he2))
    · rw [List.pairwise_cons]
      exact ⟨hpw2.1, hpw2.2⟩

theorem heapOk_from_unique_sorted_iter (l : List (K × V × Nat)) :
    heapOk (from_unique_sorted_iter l : TreapMap K V) := by
  suffices h : ∀ st : List (NodeB K V), (∀ e ∈ st, heapOk e.toTree) →
      st.Pairwise (fun a b => b.weight ≤ a.weight) →
      (∀ e ∈ l.foldl (fun st x => build_step st x.1 x.2.1 x.2.2) st,
          heapOk e.toTree) ∧
        (l.foldl (fun st x => build_step st x.1 x.2.1 x.2.2) st).Pairwise
          (fun a b => b.weight ≤ a.weight) by
    have h2 := h [] (by simp) List.Pairwise.nil
    exact build_fold_heap _ h2.1 h2.2
  induction l with
  | nil => intro st h1 h2; exact ⟨h1, h2⟩
  | cons x rest ih =>
    intro st h1 h2
    rw [List.foldl_cons]
    have h3 := build_step_heap st x.1 x.2.1 x.2.2 h1 h2
    exact ih _ h3.1 h3.2

theorem heapOk_from_sorted_iter [DecidableEq K] (l : List (K × V × Nat)) :
    heapOk (from_sorted_iter l : TreapMap K V) :=
  heapOk_from_unique_sorted_iter (dedup_sorted l)

theorem heapOk_fromIter [LinearOrder K] (l : List (K × V × Nat)) :
    heapOk (fromIter l : TreapMap K V) := by
  unfold fromIter
  by_cases hc : l.isEmpty
  · rw [if_pos hc]
    trivial
  · rw [if_neg hc]
    exact heapOk_from_unique_sorted_iter _

end TreapMap

namespace TreapMap

/-- C10: the empty tree trivially satisfies min-heap order on the weights, and
every public structural operation preserves it: both key splits and the rank
split, merge, insert (with any fresh weight), remove, and all three bulk
builders produce heap-ordered trees from heap-ordered inputs. -/
theorem C10_heap_preservation {K : Type u} {V : Type v} [LinearOrder K] :
    heapOk (nil : TreapMap K V) ∧
      (∀ (t : TreapMap K V) (k : K), heapOk t →
        heapOk (t.split_lt k).1 ∧ heapOk (t.split_lt k).2) ∧
      (∀ (t : TreapMap K V) (k : K), heapOk t →
        heapOk (t.split_le k).1 ∧ heapOk (t.split_le k).2) ∧
      (∀ (t : TreapMap K V) (n : Nat), heapOk t →
        heapOk (t.split_n n).1 ∧ heapOk (t.split_n n).2) ∧
      (∀ x y : TreapMap K V, heapOk x → heapOk y → heapOk (merge x y)) ∧
      (∀ (t : TreapMap K V) (k : K) (v : V) (w : Nat), heapOk t →
        heapOk (t.insert k v w).1) ∧
      (∀ (t : TreapMap K V) (k : K), heapOk t → heapOk (t.remove k).1) ∧
      (∀ l : List (K × V × Nat),
        heapOk (from_unique_sorted_iter l : TreapMap K V)) ∧
      (∀ l : List (K × V × Nat), heapOk (from_sorted_iter l : TreapMap K V)) ∧
      (∀ l : List (K × V × Nat), heapOk (fromIter l : TreapMap K V)) :=
  ⟨trivial,
    fun _t k h => ⟨(heapOk_split_lt k h).1, (heapOk_split_lt k h).2.1⟩,
    fun _t k h => ⟨(heapOk_split_le k h).1, (heapOk_split_le k h).2.1⟩,
    fun _t n h => ⟨(heapOk_split_n h n).1, (heapOk_split_n h n).2.1⟩,
    fun _x _y hx hy => heapOk_merge hx hy,
    fun _t k v w h => heapOk_insert k v w h,
    fun _t k h => heapOk_remove k h,
    heapOk_from_unique_sorted_iter,
    heapOk_from_sorted_iter,
    heapOk_fromIter⟩

/-- Witness for C10 at a concrete heap-ordered two-node tree: its key split
and a merge with a heap-ordered singleton stay heap-ordered. -/
theorem C10_heap_preservation_witness :
    heapOk (node (node nil nil 1 1 10 4) nil 2 2 20 3 : TreapMap ℕ ℕ) ∧
      heapOk (node nil nil 1 5 50 6 : TreapMap ℕ ℕ) ∧
      heapOk ((node (node nil nil 1 1 10 4) nil 2 2 20 3 :
        TreapMap ℕ ℕ).split_lt 2).1 ∧
      heapOk (merge (node (node nil nil 1 1 10 4) nil 2 2 20 3)
        (node nil nil 1 5 50 6) : TreapMap ℕ ℕ) := by
  refine ⟨by decide, by decide, ?_, ?_⟩
  · exact ((@C10_heap_preservation ℕ ℕ _).2.1
      (node (node nil nil 1 1 10 4) nil 2 2 20 3) 2 (by decide)).1
  · exact (@C10_heap_preservation ℕ ℕ _).2.2.2.2.1
      (node (node nil nil 1 1 10 4) nil 2 2 20 3) (node nil nil 1 5 50 6)
      (by decide) (by decide)

end TreapMap

/-!
The rank-range iterator: semantics of the explicit ancestor stack.
-/

namespace TreapMap

variable {K : Type u} {V : Type v}

section Iter

variable [LinearOrder K] [DecidableEq V]

theorem remIter_popRight (last : NodeB K V) :
    ∀ rest : List (NodeB K V),
      remIter (popRight last rest) = skipUp last.toTree rest := by
  intro rest
  induction rest generalizing last with
  | nil => rfl
  | cons p rest ih =>
    rw [popRight, skipUp]
    by_cases hc : p.right = last.toTree
    · rw [if_pos hc, if_pos hc, ih p]
    · rw [if_neg hc, if_neg hc, remIter]

theorem remIter_pushLeftSpine :
    ∀ (t : TreapMap K V) (e : NodeB K V) (st : List (NodeB K V)),
      bst t → t ≠ nil →
      remIter (pushLeftSpine t (e :: st)) = inorder t ++ skipUp t (e :: st) := by
  intro t
  induction t with
  | nil =>
    intro e st _ hne
    exact absurd rfl hne
  | node l r s k v w ihl ihr =>
    intro e st hb _
    obtain ⟨hbl, hbr, hlk, hkr⟩ := bst_node_iff.mp hb
    rw [pushLeftSpine]
    cases l with
    | nil =>
      rw [pushLeftSpine, remIter]
      show (k, v) :: (inorder r ++ skipUp (node nil r s k v w) (e :: st)) =
        inorder (node nil r s k v w) ++ skipUp (node nil r s k v w) (e :: st)
      simp [inorder]
    | node a b s2 k2 v2 w2 =>
      have hk2l : k2 ∈ keys (node a b s2 k2 v2 w2) := by simp [keys_node]
      have hne2 : ¬(r = node a b s2 k2 v2 w2) := by
        intro he
        have h1 : k2 < k := hlk k2 hk2l
        have h2 : k < k2 := hkr k2 (by rw [he]; exact hk2l)
        exact lt_asymm h1 h2
      rw [ihl ⟨node a b s2 k2 v2 w2, r, s, k, v, w⟩ (e :: st) hbl (by simp)]
      rw [skipUp, if_neg hne2]
      show inorder (node a b s2 k2 v2 w2) ++
          ((k, v) :: (inorder r ++
            skipUp (node (node a b s2 k2 v2 w2) r s k v w) (e :: st))) =
          inorder (node (node a b s2 k2 v2 w2) r s k v w) ++
            skipUp (node (node a b s2 k2 v2 w2) r s k v w) (e :: st)
      conv_rhs => rw [inorder]
      simp [List.append_assoc]

theorem remIter_move_next (last : NodeB K V) (rest : List (NodeB K V))
    (hb : bst last.right) :
    remIter (move_next (last :: rest)) =
      inorder last.right ++ skipUp last.toTree rest := by
  cases hr : last.right with
  | nil =>
    have hmv : move_next (last :: rest) = popRight last rest := by
      simp only [move_next, hr]
    rw [hmv, remIter_popRight]
    simp [inorder]
  | node a b s2 k2 v2 w2 =>
    have hmv : move_next (last :: rest) = pushLeftSpine last.right (last :: rest) := by
      simp only [move_next, hr]
    rw [hmv, remIter_pushLeftSpine last.right last rest hb (by rw [hr]; simp)]
    rw [skipUp, if_pos rfl, hr]

theorem popRight_subset (last : NodeB K V) :
    ∀ rest : List (NodeB K V), ∀ e ∈ popRight last rest, e ∈ rest := by
  intro rest
  induction rest generalizing last with
  | nil =>
    intro e he
    cases he
  | cons p rest ih =>
    intro e he
    rw [popRight] at he
    by_cases hc : p.right = last.toTree
    · rw [if_pos hc] at he
      exact List.mem_cons_of_mem p (ih p e he)
    · rw [if_neg hc] at he
      exact he

omit [DecidableEq V] in
theorem pushLeftSpine_stOk :
    ∀ (t : TreapMap K V) (st : List (NodeB K V)), bst t →
      (∀ e ∈ st, bst e.toTree) →
      ∀ e ∈ pushLeftSpine t st, bst e.toTree := by
  intro t
  induction t with
  | nil =>
    intro st _ hst e he
    exact hst e he
  | node l r s k v w ihl ihr =>
    intro st hb hst e he
    rw [pushLeftSpine] at he
    refine ihl _ (bst_node_iff.mp hb).1 ?_ e he
    intro e2 he2
    rcases List.mem_cons.mp he2 with rfl | h2
    · exact hb
    · exact hst e2 h2

theorem move_next_stOk (last : NodeB K V) (rest : List (NodeB K V))
    (hst : ∀ e ∈ last :: rest, bst e.toTree) :
    ∀ e ∈ move_next (last :: rest), bst e.toTree := by
  have hb : bst last.toTree := hst last (List.mem_cons_self last rest)
  have hbr : bst last.right := (bst_node_iff.mp hb).2.1
  cases hr : last.right with
  | nil =>
    have hmv : move_next (last :: rest) = popRight last rest := by
      simp only [move_next, hr]
    rw [hmv]
    intro e he
    exact hst e (List.mem_cons_of_mem last (popRight_subset last rest e he))
  | node a b s2 k2 v2 w2 =>
    have hmv : move_next (last :: rest) = pushLeftSpine last.right (last :: rest) := by
      simp only [move_next, hr]
    rw [hmv]
    exact pushLeftSpine_stOk last.right (last :: rest) hbr hst

theorem iter_collect_fwd :
    ∀ (m : Nat) (st : List (NodeB K V)), (∀ e ∈ st, bst e.toTree) →
      m ≤ (remIter st).length →
      iter_collect ⟨st, m, false⟩ = (remIter st).take m := by
  intro m
  induction m with
  | zero =>
    intro st _ _
    rw [iter_collect]
    simp
  | succ m ih =>
    intro st hst hlen
    cases st with
    | nil =>
      rw [remIter] at hlen
      simp at hlen
    | cons top rest =>
      have hb : bst top.toTree := hst top (List.mem_cons_self top rest)
      have hbr : bst top.right := (bst_node_iff.mp hb).2.1
      have hmv := remIter_move_next top rest hbr
      rw [iter_collect]
      simp only [Bool.false_eq_true, if_false]
      rw [remIter, List.take_succ_cons]
      congr 1
      rw [ih (move_next (top :: rest)) (move_next_stOk top rest hst) ?_, hmv]
      rw [hmv]
      rw [remIter] at hlen
      simp only [List.length_cons] at hlen
      omega

end Iter

end TreapMap

namespace TreapMap

variable {K : Type u} {V : Type v}

section Iter

variable [LinearOrder K] [DecidableEq V]

omit [DecidableEq V] in
theorem right_ne_left_of_bst {l r : TreapMap K V} {s : Nat} {k : K} {v : V}
    {w : Nat} (hb : bst (node l r s k v w)) (hne : l ≠ nil) : ¬(r = l) := by
  obtain ⟨hbl, hbr, hlk, hkr⟩ := bst_node_iff.mp hb
  intro he
  cases hl2 : l with
  | nil => exact hne hl2
  | node a b s2 k2 v2 w2 =>
    have hk2 : k2 ∈ keys l := by
      rw [hl2]
      simp [keys_node]
    have h1 : k2 < k := hlk k2 hk2
    have h2 : k < k2 := hkr k2 (by rw [he]; exact hk2)
    exact lt_asymm h1 h2

theorem slice_descend_remIter :
    ∀ t : TreapMap K V, sizeOk t → bst t →
      ∀ (n : Nat) (st : List (NodeB K V)), 1 ≤ n → n ≤ (inorder t).length →
        remIter (slice_descend t n st) =
          (inorder t).drop (n - 1) ++ skipUp t st := by
  intro t
  induction t with
  | nil =>
    intro _ _ n st h1 h2
    simp [inorder] at h2
    omega
  | node l r s k v w ihl ihr =>
    intro hs hb n st h1 h2
    obtain ⟨hsz, hsl, hsr⟩ := hs
    have hlen : l.len = (inorder l).length := len_eq_length l hsl
    rw [inorder, List.length_append, List.length_cons] at h2
    rw [slice_descend]
    by_cases hc : n ≤ l.len
    · rw [if_pos hc]
      have hlnn : l ≠ nil := by
        intro he
        rw [he] at hc
        simp [len] at hc
        omega
      have hne2 : ¬(r = l) := right_ne_left_of_bst hb hlnn
      rw [ihl hsl (bst_node_iff.mp hb).1 n (⟨l, r, s, k, v, w⟩ :: st) h1
        (by omega)]
      rw [skipUp, if_neg hne2]
      show (inorder l).drop (n - 1) ++
          ((k, v) :: (inorder r ++ skipUp (node l r s k v w) st)) =
          (inorder (node l r s k v w)).drop (n - 1) ++ skipUp (node l r s k v w) st
      rw [inorder, List.drop_append_of_le_length (by omega)]
      simp [List.append_assoc]
    · by_cases hz : n - l.len - 1 = 0
      · rw [if_neg hc, if_pos hz, remIter]
        show (k, v) :: (inorder r ++ skipUp (node l r s k v w) st) = _
        rw [inorder, List.drop_left' (show (inorder l).length = n - 1 by omega)]
        simp
      · rw [if_neg hc, if_neg hz]
        rw [ihr hsr (bst_node_iff.mp hb).2.1 (n - l.len - 1)
          (⟨l, r, s, k, v, w⟩ :: st) (by omega) (by omega)]
        rw [skipUp, if_pos rfl]
        show (inorder r).drop (n - l.len - 1 - 1) ++ skipUp (node l r s k v w) st = _
        rw [inorder]
        have harith : n - 1 = (inorder l).length + ((n - l.len - 1 - 1) + 1) := by
          omega
        rw [harith, List.drop_append, List.drop_succ_cons]

end Iter

end TreapMap

namespace TreapMap

variable {K : Type u} {V : Type v}

section Iter

variable [LinearOrder K] [DecidableEq V]

omit [DecidableEq V] in
theorem slice_descend_stOk :
    ∀ (t : TreapMap K V) (st : List (NodeB K V)), bst t →
      (∀ e ∈ st, bst e.toTree) →
      ∀ n, ∀ e ∈ slice_descend t n st, bst e.toTree := by
  intro t
  induction t with
  | nil =>
    intro st _ hst n e he
    exact hst e he
  | node l r s k v w ihl ihr =>
    intro st hb hst n e he
    have hst' : ∀ e2 ∈ (⟨l, r, s, k, v, w⟩ : NodeB K V) :: st, bst e2.toTree := by
      intro e2 he2
      rcases List.mem_cons.mp he2 with rfl | h2
      · exact hb
      · exact hst e2 h2
    rw [slice_descend] at he
    by_cases hc : n ≤ l.len
    · rw [if_pos hc] at he
      exact ihl _ (bst_node_iff.mp hb).1 hst' n e he
    · by_cases hz : n - l.len - 1 = 0
      · rw [if_neg hc, if_pos hz] at he
        exact hst' e he
      · rw [if_neg hc, if_neg hz] at he
        exact ihr _ (bst_node_iff.mp hb).2.1 hst' _ e he

theorem slice_collect (t : TreapMap K V) (hwf : Wf t) (s0 e0 : Nat) :
    iter_collect (slice t s0 e0) =
      ((inorder t).drop s0).take (Min.min e0 t.len - s0) := by
  obtain ⟨hsz, hbst⟩ := hwf
  have hlen : t.len = (inorder t).length := len_eq_length t hsz
  unfold slice
  by_cases hc : s0 ≥ Min.min e0 t.len
  · rw [if_pos hc]
    have h0 : Min.min e0 t.len - s0 = 0 := by omega
    rw [h0, iter_collect]
    simp
  · rw [if_neg hc]
    have hm : Min.min e0 t.len ≤ t.len := Nat.min_le_right e0 t.len
    have h2 : s0 + 1 ≤ (inorder t).length := by omega
    have hrem : remIter (slice_descend t (s0 + 1) []) = (inorder t).drop s0 := by
      rw [slice_descend_remIter t hsz hbst (s0 + 1) [] (by omega) h2]
      cases t with
      | nil =>
        simp [inorder] at h2
      | node l r s k v w => simp [skipUp]
    have hstok : ∀ e ∈ slice_descend t (s0 + 1) [], bst e.toTree :=
      slice_descend_stOk t [] hbst (by simp) (s0 + 1)
    have hside : Min.min e0 t.len - s0 ≤ ((inorder t).drop s0).length := by
      rw [List.length_drop, ← hlen]
      exact Nat.sub_le_sub_right (Nat.min_le_right e0 t.len) s0
    rw [iter_collect_fwd (Min.min e0 t.len - s0) _ hstok
      (by rw [hrem]; exact hside), hrem]

end Iter

end TreapMap

namespace TreapMap

variable {K : Type u} {V : Type v}

section Iter

variable [LinearOrder K] [DecidableEq V]

omit [DecidableEq V] in
theorem left_ne_right_of_bst {l r : TreapMap K V} {s : Nat} {k : K} {v : V}
    {w : Nat} (hb : bst (node l r s k v w)) (hne : r ≠ nil) : ¬(l = r) := by
  obtain ⟨hbl, hbr, hlk, hkr⟩ := bst_node_iff.mp hb
  intro he
  cases hr2 : r with
  | nil => exact hne hr2
  | node a b s2 k2 v2 w2 =>
    have hk2 : k2 ∈ keys r := by
      rw [hr2]
      simp [keys_node]
    have h1 : k < k2 := hkr k2 hk2
    have h2 : k2 < k := hlk k2 (by rw [he]; exact hk2)
    exact lt_asymm h1 h2

theorem remIterR_popLeft (last : NodeB K V) :
    ∀ rest : List (NodeB K V),
      remIterR (popLeft last rest) = skipUpR last.toTree rest := by
  intro rest
  induction rest generalizing last with
  | nil => rfl
  | cons p rest ih =>
    rw [popLeft, skipUpR]
    by_cases hc : p.left = last.toTree
    · rw [if_pos hc, if_pos hc, ih p]
    · rw [if_neg hc, if_neg hc, remIterR]

theorem remIterR_pushRightSpine :
    ∀ (t : TreapMap K V) (e : NodeB K V) (st : List (NodeB K V)),
      bst t → t ≠ nil →
      remIterR (pushRightSpine t (e :: st)) =
        (inorder t).reverse ++ skipUpR t (e :: st) := by
  intro t
  induction t with
  | nil =>
    intro e st _ hne
    exact absurd rfl hne
  | node l r s k v w ihl ihr =>
    intro e st hb _
    rw [pushRightSpine]
    cases r with
    | nil =>
      rw [pushRightSpine, remIterR]
      show (k, v) :: ((inorder l).reverse ++ skipUpR (node l nil s k v w) (e :: st)) =
        (inorder (node l nil s k v w)).reverse ++ skipUpR (node l nil s k v w) (e :: st)
      simp [inorder]
    | node a b s2 k2 v2 w2 =>
      have hne2 : ¬(l = node a b s2 k2 v2 w2) :=
        left_ne_right_of_bst hb (by simp)
      rw [ihr ⟨l, node a b s2 k2 v2 w2, s, k, v, w⟩ (e :: st)
        (bst_node_iff.mp hb).2.1 (by simp)]
      rw [skipUpR, if_neg hne2]
      show (inorder (node a b s2 k2 v2 w2)).reverse ++
          ((k, v) :: ((inorder l).reverse ++
            skipUpR (node l (node a b s2 k2 v2 w2) s k v w) (e :: st))) =
          (inorder (node l (node a b s2 k2 v2 w2) s k v w)).reverse ++
            skipUpR (node l (node a b s2 k2 v2 w2) s k v w) (e :: st)
      conv_rhs => rw [inorder]
      rw [List.reverse_append]
      simp [List.append_assoc]

theorem remIterR_move_prev (last : NodeB K V) (rest : List (NodeB K V))
    (hb : bst last.left) :
    remIterR (move_prev (last :: rest)) =
      (inorder last.left).reverse ++ skipUpR last.toTree rest := by
  cases hr : last.left with
  | nil =>
    have hmv : move_prev (last :: rest) = popLeft last rest := by
      simp only [move_prev, hr]
    rw [hmv, remIterR_popLeft]
    simp [inorder]
  | node a b s2 k2 v2 w2 =>
    have hmv : move_prev (last :: rest) = pushRightSpine last.left (last :: rest) := by
      simp only [move_prev, hr]
    rw [hmv, remIterR_pushRightSpine last.left last rest hb (by rw [hr]; simp)]
    rw [skipUpR, if_pos rfl, hr]

theorem popLeft_subset (last : NodeB K V) :
    ∀ rest : List (NodeB K V), ∀ e ∈ popLeft last rest, e ∈ rest := by
  intro rest
  induction rest generalizing last with
  | nil =>
    intro e he
    cases he
  | cons p rest ih =>
    intro e he
    rw [popLeft] at he
    by_cases hc : p.left = last.toTree
    · rw [if_pos hc] at he
      exact List.mem_cons_of_mem p (ih p e he)
    · rw [if_neg hc] at he
      exact he

omit [DecidableEq V] in
theorem pushRightSpine_stOk :
    ∀ (t : TreapMap K V) (st : List (NodeB K V)), bst t →
      (∀ e ∈ st, bst e.toTree) →
      ∀ e ∈ pushRightSpine t st, bst e.toTree := by
  intro t
  induction t with
  | nil =>
    intro st _ hst e he
    exact hst e he
  | node l r s k v w ihl ihr =>
    intro st hb hst e he
    rw [pushRightSpine] at he
    refine ihr _ (bst_node_iff.mp hb).2.1 ?_ e he
    intro e2 he2
    rcases List.mem_cons.mp he2 with rfl | h2
    · exact hb
    · exact hst e2 h2

theorem move_prev_stOk (last : NodeB K V) (rest : List (NodeB K V))
    (hst : ∀ e ∈ last :: rest, bst e.toTree) :
    ∀ e ∈ move_prev (last :: rest), bst e.toTree := by
  have hb : bst last.toTree := hst last (List.mem_cons_self last rest)
  have hbl : bst last.left := (bst_node_iff.mp hb).1
  cases hr : last.left with
  | nil =>
    have hmv : move_prev (last :: rest) = popLeft last rest := by
      simp only [move_prev, hr]
    rw [hmv]
    intro e he
    exact hst e (List.mem_cons_of_mem last (popLeft_subset last rest e he))
  | node a b s2 k2 v2 w2 =>
    have hmv : move_prev (last :: rest) = pushRightSpine last.left (last :: rest) := by
      simp only [move_prev, hr]
    rw [hmv]
    exact pushRightSpine_stOk last.left (last :: rest) hbl hst

theorem iter_collect_rev :
    ∀ (m : Nat) (st : List (NodeB K V)), (∀ e ∈ st, bst e.toTree) →
      m ≤ (remIterR st).length →
      iter_collect ⟨st, m, true⟩ = (remIterR st).take m := by
  intro m
  induction m with
  | zero =>
    intro st _ _
    rw [iter_collect]
    simp
  | succ m ih =>
    intro st hst hlen
    cases st with
    | nil =>
      rw [remIterR] at hlen
      simp at hlen
    | cons top rest =>
      have hb : bst top.toTree := hst top (List.mem_cons_self top rest)
      have hbl : bst top.left := (bst_node_iff.mp hb).1
      have hmv := remIterR_move_prev top rest hbl
      rw [iter_collect]
      simp only [if_true]
      rw [remIterR, List.take_succ_cons]
      congr 1
      rw [ih (move_prev (top :: rest)) (move_prev_stOk top rest hst) ?_, hmv]
      rw [hmv]
      rw [remIterR] at hlen
      simp only [List.length_cons] at hlen
      omega

theorem slice_descend_remIterR :
    ∀ t : TreapMap K V, sizeOk t → bst t →
      ∀ (n : Nat) (st : List (NodeB K V)), 1 ≤ n → n ≤ (inorder t).length →
        remIterR (slice_descend t n st) =
          ((inorder t).take n).reverse ++ skipUpR t st := by
  intro t
  induction t with
  | nil =>
    intro _ _ n st h1 h2
    simp [inorder] at h2
    omega
  | node l r s k v w ihl ihr =>
    intro hs hb n st h1 h2
    obtain ⟨hsz, hsl, hsr⟩ := hs
    have hlen : l.len = (inorder l).length := len_eq_length l hsl
    rw [inorder, List.length_append, List.length_cons] at h2
    rw [slice_descend]
    by_cases hc : n ≤ l.len
    · rw [if_pos hc]
      rw [ihl hsl (bst_node_iff.mp hb).1 n (⟨l, r, s, k, v, w⟩ :: st) h1
        (by omega)]
      rw [skipUpR, if_pos rfl]
      show ((inorder l).take n).reverse ++ skipUpR (node l r s k v w) st = _
      rw [inorder, List.take_append_of_le_length (by omega)]
    · by_cases hz : n - l.len - 1 = 0
      · rw [if_neg hc, if_pos hz, remIterR]
        show (k, v) :: ((inorder l).reverse ++ skipUpR (node l r s k v w) st) = _
        rw [inorder]
        have harith : n = (inorder l).length + 1 := by omega
        have htake : List.take ((inorder l).length + 1)
            (inorder l ++ (k, v) :: inorder r) = inorder l ++ [(k, v)] := by
          rw [List.take_append]
          rfl
        rw [harith, htake, List.reverse_append]
        simp
      · rw [if_neg hc, if_neg hz]
        have hrnn : r ≠ nil := by
          intro he
          rw [he] at h2
          simp [inorder] at h2
          omega
        have hne2 : ¬(l = r) := left_ne_right_of_bst hb hrnn
        rw [ihr hsr (bst_node_iff.mp hb).2.1 (n - l.len - 1)
          (⟨l, r, s, k, v, w⟩ :: st) (by omega) (by omega)]
        rw [skipUpR, if_neg hne2]
        show ((inorder r).take (n - l.len - 1)).reverse ++
            ((k, v) :: ((inorder l).reverse ++ skipUpR (node l r s k v w) st)) = _
        rw [inorder]
        have harith : n = (inorder l).length + (n - l.len - 1 + 1) := by omega
        conv_rhs => rw [harith, List.take_append, List.take_succ_cons]
        rw [List.reverse_append]
        simp [List.append_assoc]
    
end Iter

end TreapMap

namespace TreapMap

variable {K : Type u} {V : Type v}

section Iter

variable [LinearOrder K] [DecidableEq V]

theorem rev_slice_collect (t : TreapMap K V) (hwf : Wf t) (s0 e0 : Nat) :
    iter_collect (rev_slice t s0 e0) =
      (((inorder t).drop s0).take (Min.min e0 t.len - s0)).reverse := by
  obtain ⟨hsz, hbst⟩ := hwf
  have hlen : t.len = (inorder t).length := len_eq_length t hsz
  unfold rev_slice
  by_cases hc : s0 ≥ Min.min e0 t.len
  · rw [if_pos hc]
    have h0 : Min.min e0 t.len - s0 = 0 := by omega
    rw [h0, iter_collect]
    simp
  · rw [if_neg hc]
    have hm : Min.min e0 t.len ≤ t.len := Nat.min_le_right e0 t.len
    have hm1 : 1 ≤ Min.min e0 t.len := by omega
    have hmin2 : Min.min (Min.min e0 t.len) t.len = Min.min e0 t.len :=
      Nat.min_eq_left hm
    have hstack : (slice t (Min.min e0 t.len - 1) (Min.min e0 t.len)).stack =
        slice_descend t (Min.min e0 t.len) [] := by
      unfold slice
      rw [hmin2, if_neg (by omega)]
      show slice_descend t (Min.min e0 t.len - 1 + 1) [] = _
      have harith : Min.min e0 t.len - 1 + 1 = Min.min e0 t.len := by omega
      rw [harith]
    show iter_collect ⟨(slice t (Min.min e0 t.len - 1) (Min.min e0 t.len)).stack,
      Min.min e0 t.len - s0, true⟩ = _
    rw [hstack]
    have hrem : remIterR (slice_descend t (Min.min e0 t.len) []) =
        ((inorder t).take (Min.min e0 t.len)).reverse := by
      rw [slice_descend_remIterR t hsz hbst (Min.min e0 t.len) [] hm1 (by omega)]
      cases t with
      | nil =>
        rw [show (nil : TreapMap K V).len = 0 from rfl] at hm1
        simp at hm1
      | node l r s k v w => simp [skipUpR]
    have hstok : ∀ e ∈ slice_descend t (Min.min e0 t.len) [], bst e.toTree :=
      slice_descend_stOk t [] hbst (by simp) (Min.min e0 t.len)
    have hside : Min.min e0 t.len - s0 ≤
        (remIterR (slice_descend t (Min.min e0 t.len) [])).length := by
      rw [hrem, List.length_reverse, List.length_take]
      omega
    rw [iter_collect_rev (Min.min e0 t.len - s0) _ hstok hside, hrem]
    rw [List.take_reverse]
    have hidx : (List.take (Min.min e0 t.len) (inorder t)).length -
        (Min.min e0 t.len - s0) = s0 := by
      rw [List.length_take]
      omega
    rw [hidx, List.drop_take]

end Iter

/-- C9: `slice` and `rev_slice` never fail: the upper rank bound is first
capped at the current length, a range whose start is not below the capped
bound yields the empty sequence, and otherwise the iterator yields exactly
`min(stop, len) - start` items (never more than `stop - start`), namely the
entries at ranks `start` through `min(stop, len) - 1`, ascending for `slice`
and descending for `rev_slice`. -/
theorem C9_slice_spec [LinearOrder K] [DecidableEq V] (t : TreapMap K V)
    (hwf : Wf t) (s0 e0 : Nat) :
    iter_collect (slice t s0 e0) =
        ((inorder t).drop s0).take (Min.min e0 t.len - s0) ∧
      iter_collect (rev_slice t s0 e0) =
        (((inorder t).drop s0).take (Min.min e0 t.len - s0)).reverse ∧
      (iter_collect (slice t s0 e0)).length = Min.min e0 t.len - s0 ∧
      (iter_collect (slice t s0 e0)).length ≤ e0 - s0 := by
  have h1 := slice_collect t hwf s0 e0
  have h2 := rev_slice_collect t hwf s0 e0
  have hlenq : (iter_collect (slice t s0 e0)).length = Min.min e0 t.len - s0 := by
    rw [h1, List.length_take, List.length_drop]
    have := len_eq_length t hwf.1
    have := Nat.min_le_right e0 t.len
    omega
  refine ⟨h1, h2, hlenq, ?_⟩
  rw [hlenq]
  have := Nat.min_le_left e0 t.len
  omega

/-- Witness for C9 at a concrete two-node map with an oversized rank range. -/
theorem C9_slice_spec_witness :
    Wf (node (node nil nil 1 1 10 4) nil 2 2 20 3 : TreapMap ℕ ℕ) ∧
      iter_collect ((node (node nil nil 1 1 10 4) nil 2 2 20 3 :
          TreapMap ℕ ℕ).slice 0 5) = [(1, 10), (2, 20)] ∧
      iter_collect ((node (node nil nil 1 1 10 4) nil 2 2 20 3 :
          TreapMap ℕ ℕ).rev_slice 0 5) = [(2, 20), (1, 10)] := by
  refine ⟨by decide, ?_, ?_⟩
  · exact (C9_slice_spec (node (node nil nil 1 1 10 4) nil 2 2 20 3)
      (by decide) 0 5).1.trans (by decide)
  · exact (C9_slice_spec (node (node nil nil 1 1 10 4) nil 2 2 20 3)
      (by decide) 0 5).2.1.trans (by decide)

end TreapMap
